import Mathlib

/-!
# Verification of the comic-search metadata normalization engine

This file gives a shallow embedding, in Lean 4, of the metadata
normalization and linking engine of the comic-search plugin (the final
revised version of the source, `main.ts`): field normalizers
(role canonicalization, role-to-ontology-key mapping, date decomposition,
cross-reference and filename sanitization), the rate-limited fetch client,
role-concept resolution, and the person-note upsert engine, together with
theorems settling the specified properties.

JavaScript strings are modelled as Lean `String`/`List Char`;
`toUpperCase`/`toLowerCase` are modelled on ASCII letters (the only case
the engine relies on); JavaScript `Date` parsing is modelled on the ISO
date grammars `yyyy`, `yyyy-mm`, `yyyy-mm-dd` that the data uses.
The document store (the vault) is modelled as association lists from file
path to structured document content, and the asynchronous effects of the
engine are modelled by explicit state passing.
-/

namespace ComicSearch

/-! ## JavaScript string primitives -/

/-- Whitespace characters recognized by the JavaScript `trim`, `trimStart`
and `\s` regex class (restricted to the ASCII range). -/
def jsWs (c : Char) : Bool :=
  c.toNat = 32 || c.toNat = 9 || c.toNat = 10 || c.toNat = 13 ||
  c.toNat = 11 || c.toNat = 12

/-- Model of `String.prototype.trim` on character lists: drop whitespace
from both ends. -/
def trimChars (l : List Char) : List Char :=
  (l.dropWhile jsWs).rdropWhile jsWs

/-- Model of `String.prototype.trim`. -/
def jsTrim (s : String) : String :=
  ⟨trimChars s.data⟩

/-- Model of `String.prototype.trimStart`. -/
def jsTrimStart (s : String) : String :=
  ⟨s.data.dropWhile jsWs⟩

/-- Model of `String.prototype.toUpperCase` on one character (ASCII
letters a-z, code points 97-122, are mapped down by 32). -/
def jsToUpper (c : Char) : Char :=
  if 97 ≤ c.toNat ∧ c.toNat ≤ 122 then Char.ofNat (c.toNat - 32) else c

/-- Model of `String.prototype.toLowerCase` on one character (ASCII
letters A-Z, code points 65-90, are mapped up by 32). -/
def jsToLower (c : Char) : Char :=
  if 65 ≤ c.toNat ∧ c.toNat ≤ 90 then Char.ofNat (c.toNat + 32) else c

/-- `Char.ofNat` on a value below the surrogate range round-trips
through `Char.toNat`. -/
theorem toNat_ofNat_valid {n : Nat} (h : n < 55296) :
    (Char.ofNat n).toNat = n := by
  have hv : n.isValidChar := Or.inl h
  rw [Char.ofNat, dif_pos hv]
  simp [Char.ofNatAux, Char.toNat, UInt32.toNat, UInt32.ofNatTruncate]

/-- Uppercasing is idempotent. -/
theorem jsToUpper_idem (c : Char) : jsToUpper (jsToUpper c) = jsToUpper c := by
  unfold jsToUpper
  by_cases h : 97 ≤ c.toNat ∧ c.toNat ≤ 122
  · rw [if_pos h]
    have hval : (Char.ofNat (c.toNat - 32)).toNat = c.toNat - 32 :=
      toNat_ofNat_valid (by omega)
    rw [if_neg (by rw [hval]; omega)]
  · rw [if_neg h, if_neg h]

/-- Uppercasing never produces a whitespace character from a
non-whitespace character. -/
theorem jsWs_jsToUpper (c : Char) : jsWs (jsToUpper c) = jsWs c := by
  unfold jsToUpper
  by_cases h : 97 ≤ c.toNat ∧ c.toNat ≤ 122
  · rw [if_pos h]
    have hval : (Char.ofNat (c.toNat - 32)).toNat = c.toNat - 32 :=
      toNat_ofNat_valid (by omega)
    have hl : jsWs (Char.ofNat (c.toNat - 32)) = false := by
      simp only [jsWs, hval, Bool.or_eq_false_iff, decide_eq_false_iff_not]
      omega
    have hr2 : jsWs c = false := by
      simp only [jsWs, Bool.or_eq_false_iff, decide_eq_false_iff_not]
      omega
    rw [hl, hr2]
  · rw [if_neg h]

/-- Uppercasing a character other than a space never yields a space. -/
theorem jsToUpper_ne_space {c : Char} (h : c ≠ ' ') : jsToUpper c ≠ ' ' := by
  unfold jsToUpper
  by_cases hr : 97 ≤ c.toNat ∧ c.toNat ≤ 122
  · rw [if_pos hr]
    intro hcon
    have hval : (Char.ofNat (c.toNat - 32)).toNat = c.toNat - 32 :=
      toNat_ofNat_valid (by omega)
    have : (' ' : Char).toNat = 32 := rfl
    rw [hcon] at hval
    omega
  · rw [if_neg hr]
    exact h

/-- Model of `String.prototype.split(sep)` for a one-character separator:
splitting the empty string yields one empty piece, exactly as in
JavaScript. -/
def jsSplit (sep : Char) : List Char → List (List Char)
  | [] => [[]]
  | c :: cs =>
    if c = sep then
      [] :: jsSplit sep cs
    else
      (c :: (jsSplit sep cs).headD []) :: (jsSplit sep cs).tail

/-- `jsSplit` never produces an empty list of pieces. -/
theorem jsSplit_ne_nil (sep : Char) (l : List Char) : jsSplit sep l ≠ [] := by
  cases l with
  | nil => simp [jsSplit]
  | cons c cs =>
    simp only [jsSplit]
    split
    · simp
    · simp

/-- No piece produced by `jsSplit` contains the separator. -/
theorem jsSplit_not_mem (sep : Char) (l : List Char) :
    ∀ p ∈ jsSplit sep l, sep ∉ p := by
  induction l with
  | nil =>
    intro p hp
    simp only [jsSplit, List.mem_singleton] at hp
    subst hp
    simp
  | cons c cs ih =>
    intro p hp
    by_cases hc : c = sep
    · rw [jsSplit, if_pos hc] at hp
      rcases List.mem_cons.mp hp with h | h
      · subst h
        simp
      · exact ih p h
    · rw [jsSplit, if_neg hc] at hp
      rcases hsp : jsSplit sep cs with _ | ⟨h0, t0⟩
      · exact absurd hsp (jsSplit_ne_nil sep cs)
      · rw [hsp] at hp
        simp only [List.headD, List.tail] at hp
        rcases List.mem_cons.mp hp with h | h
        · subst h
          intro hmem
          rcases List.mem_cons.mp hmem with h | h
          · exact hc h.symm
          · exact ih h0 (by rw [hsp]; exact List.mem_cons_self _ _) h
        · exact ih p (by rw [hsp]; exact List.mem_cons_of_mem _ h)

/-! ## Cross-reference sanitization (claim C2)

Source (`cleanForWikilink`):
`text.replace(/[\[\]|#^]/g, '').trim()` -/

/-- The characters the wikilink sanitizer strips: brackets, pipe,
hash and caret. -/
def wikiBad (c : Char) : Bool :=
  c = '[' || c = ']' || c = '|' || c = '#' || c = '^'

/-- Model of `cleanForWikilink` from the source: remove every
bracket/pipe/hash/caret character, then trim. -/
def cleanForWikilink (s : String) : String :=
  ⟨trimChars (s.data.filter (fun c => !(wikiBad c)))⟩

/-- Members of `trimChars l` are members of `l`. -/
theorem mem_trimChars {c : Char} {l : List Char} (h : c ∈ trimChars l) :
    c ∈ l := by
  unfold trimChars at h
  have h1 : List.rdropWhile jsWs (l.dropWhile jsWs) <+: l.dropWhile jsWs :=
    List.rdropWhile_prefix jsWs (l.dropWhile jsWs)
  have h2 := h1.sublist.mem h
  exact (List.dropWhile_sublist (l := l) (p := jsWs)).mem h2

/-! ## Filename sanitization

Source (`sanitizeForFileName`):
`name.replace(/[<>:"/\\|?*#^|[\]]/g, '').trim()` -/

/-- The characters illegal in file names, as stripped by the source. -/
def fileBad (c : Char) : Bool :=
  c = '<' || c = '>' || c = ':' || c = '"' || c = '/' || c = '\\' ||
  c = '|' || c = '?' || c = '*' || c = '#' || c = '^' || c = '[' || c = ']'

/-- Model of `sanitizeForFileName` from the source. -/
def sanitizeForFileName (s : String) : String :=
  ⟨trimChars (s.data.filter (fun c => !(fileBad c)))⟩

/-! ## Role-to-ontology-key mapping (claim C7)

Source (`mapRoleToOntologyKey`, revised version): a fixed lookup table on
the lowercased, trimmed role name, with fallback `contributedTo`. -/

/-- The fixed role table of `mapRoleToOntologyKey`. -/
def roleTable : List (String × String) :=
  [("writer", "writtenBy"), ("script", "writtenBy"), ("editor", "editedBy"),
   ("penciler", "penciler"), ("penciller", "penciler"), ("inker", "inker"),
   ("colorist", "colorist"), ("letterer", "letterer"),
   ("cover artist", "coverArtist"), ("cover", "coverArtist"),
   ("artist", "contributedTo"), ("creator", "creator")]

/-- The key used for table lookup: `role.toLowerCase().trim()`. -/
def roleLookupKey (role : String) : String :=
  ⟨trimChars (role.data.map jsToLower)⟩

/-- Model of `mapRoleToOntologyKey` from the source:
`return mapping[roleLower] || 'contributedTo';`. -/
def mapRoleToOntologyKey (role : String) : String :=
  (roleTable.lookup (roleLookupKey role)).getD "contributedTo"

/-- C2: for every entity display name, the cross-reference sanitization
function applied before the name is embedded in a wikilink returns a
string containing none of the bracket, pipe, caret or hash characters
(in particular this holds for names that contained such characters). -/
theorem cleanForWikilink_no_bad_chars (s : String) :
    (cleanForWikilink s).data.all (fun c => !(wikiBad c)) = true := by
  rw [List.all_eq_true]
  intro c hc
  have hmem : c ∈ trimChars (s.data.filter (fun c => !(wikiBad c))) := hc
  exact (List.mem_filter.mp (mem_trimChars hmem)).2

/-- C7: the role-to-ontology-key mapping is total (it is a Lean function,
defined for every input string); every role in the fixed lowercase
lookup table maps to its listed semantic key, in particular writer to
writtenBy, penciler and penciller to penciler, cover artist and cover to
coverArtist; and every role whose lowercased trimmed form is not in the
table maps to the single generic fallback key contributedTo. -/
theorem mapRoleToOntologyKey_table_and_fallback :
    roleTable.all (fun kv => mapRoleToOntologyKey kv.1 == kv.2) = true
    ∧ mapRoleToOntologyKey "writer" = "writtenBy"
    ∧ mapRoleToOntologyKey "penciler" = "penciler"
    ∧ mapRoleToOntologyKey "penciller" = "penciler"
    ∧ mapRoleToOntologyKey "cover artist" = "coverArtist"
    ∧ mapRoleToOntologyKey "cover" = "coverArtist"
    ∧ ∀ role : String, roleTable.lookup (roleLookupKey role) = none →
        mapRoleToOntologyKey role = "contributedTo" := by
  refine ⟨by decide, by decide, by decide, by decide, by decide, by decide, ?_⟩
  intro role h
  rw [mapRoleToOntologyKey, h]
  rfl

/-- Witness for C7: the fallback clause applies to the concrete
off-table role "plotter". -/
theorem mapRoleToOntologyKey_fallback_witness :
    mapRoleToOntologyKey "plotter" = "contributedTo" :=
  mapRoleToOntologyKey_table_and_fallback.2.2.2.2.2.2 "plotter" (by decide)

/-! ## Role split and canonicalization (claim C6)

Source (`processIssueData`, revised version):
`credit.role.split(',').map(r => r.trim().split(' ')
   .map(w => w.charAt(0).toUpperCase() + w.slice(1)).join(' '))`
followed by `roles.forEach(role => { if (!role) return; ... })`. -/

/-- Capitalize one word: `w.charAt(0).toUpperCase() + w.slice(1)`. -/
def capWord : List Char → List Char
  | [] => []
  | c :: cs => jsToUpper c :: cs

/-- Model of `Array.prototype.join(sep)` for a one-character separator. -/
def joinChar (sep : Char) : List (List Char) → List Char
  | [] => []
  | [p] => p
  | p :: ps => p ++ sep :: joinChar sep ps

theorem joinChar_cons_cons (sep c : Char) (h : List Char)
    (t : List (List Char)) :
    joinChar sep ((c :: h) :: t) = c :: joinChar sep (h :: t) := by
  cases t <;> rfl

theorem joinChar_cons_of_ne_nil (sep : Char) (p : List Char)
    (ps : List (List Char)) (h : ps ≠ []) :
    joinChar sep (p :: ps) = p ++ sep :: joinChar sep ps := by
  cases ps with
  | nil => exact absurd rfl h
  | cons q qs => rfl

/-- Joining the pieces of a split recovers the original list. -/
theorem joinChar_jsSplit (sep : Char) (l : List Char) :
    joinChar sep (jsSplit sep l) = l := by
  induction l with
  | nil => rfl
  | cons c cs ih =>
    by_cases hc : c = sep
    · rw [jsSplit, if_pos hc]
      rw [joinChar_cons_of_ne_nil sep [] _ (jsSplit_ne_nil sep cs)]
      simp [hc, ih]
    · rw [jsSplit, if_neg hc]
      rcases hsp : jsSplit sep cs with _ | ⟨h0, t0⟩
      · exact absurd hsp (jsSplit_ne_nil sep cs)
      · show joinChar sep ((c :: h0) :: t0) = c :: cs
        rw [joinChar_cons_cons, ← hsp, ih]

/-- Splitting a list without the separator yields a single piece. -/
theorem jsSplit_eq_single {sep : Char} {p : List Char} (h : sep ∉ p) :
    jsSplit sep p = [p] := by
  induction p with
  | nil => rfl
  | cons c cs ih =>
    have hc : ¬ c = sep := fun hcon => h (hcon ▸ List.mem_cons_self c cs)
    rw [jsSplit, if_neg hc, ih (fun hm => h (List.mem_cons_of_mem c hm))]
    rfl

/-- Splitting a list of the form `p ++ sep :: rest` where `p` does not
contain the separator peels off `p` as the first piece. -/
theorem jsSplit_append_sep {sep : Char} {p : List Char} (rest : List Char)
    (h : sep ∉ p) :
    jsSplit sep (p ++ sep :: rest) = p :: jsSplit sep rest := by
  induction p with
  | nil => simp [jsSplit]
  | cons c cs ih =>
    have hc : ¬ c = sep := fun hcon => h (hcon ▸ List.mem_cons_self c cs)
    rw [List.cons_append, jsSplit, if_neg hc,
      ih (fun hm => h (List.mem_cons_of_mem c hm))]
    rfl

/-- Splitting undoes joining when no piece contains the separator. -/
theorem jsSplit_joinChar {sep : Char} {Q : List (List Char)} (h0 : Q ≠ [])
    (h : ∀ p ∈ Q, sep ∉ p) : jsSplit sep (joinChar sep Q) = Q := by
  induction Q with
  | nil => exact absurd rfl h0
  | cons p ps ih =>
    cases ps with
    | nil =>
      show jsSplit sep (joinChar sep [p]) = [p]
      exact jsSplit_eq_single (h p (List.mem_cons_self p []))
    | cons q qs =>
      rw [joinChar_cons_of_ne_nil sep p _ (by simp)]
      rw [jsSplit_append_sep _ (h p (List.mem_cons_self p _))]
      rw [ih (by simp) (fun r hr => h r (List.mem_cons_of_mem p hr))]

theorem capWord_capWord (w : List Char) : capWord (capWord w) = capWord w := by
  cases w with
  | nil => rfl
  | cons c cs => simp [capWord, jsToUpper_idem]

theorem space_not_mem_capWord {w : List Char} (h : ' ' ∉ w) :
    ' ' ∉ capWord w := by
  cases w with
  | nil => simp [capWord]
  | cons c cs =>
    simp only [capWord]
    intro hmem
    rcases List.mem_cons.mp hmem with h1 | h1
    · exact jsToUpper_ne_space (fun hc => h (hc ▸ List.mem_cons_self c cs)) h1.symm
    · exact h (List.mem_cons_of_mem c h1)

/-- Every member of a join is the separator or a member of some piece. -/
theorem mem_joinChar {sep x : Char} {Q : List (List Char)}
    (h : x ∈ joinChar sep Q) : x = sep ∨ ∃ p ∈ Q, x ∈ p := by
  induction Q with
  | nil => simp [joinChar] at h
  | cons p ps ih =>
    cases ps with
    | nil =>
      right
      exact ⟨p, List.mem_cons_self p [], h⟩
    | cons q qs =>
      rw [joinChar_cons_of_ne_nil sep p _ (by simp)] at h
      rcases List.mem_append.mp h with h1 | h1
      · right
        exact ⟨p, List.mem_cons_self p _, h1⟩
      · rcases List.mem_cons.mp h1 with h2 | h2
        · exact Or.inl h2
        · rcases ih h2 with h3 | ⟨r, hr, hx⟩
          · exact Or.inl h3
          · exact Or.inr ⟨r, List.mem_cons_of_mem p hr, hx⟩

/-- A member of a piece is a member of the join of the pieces. -/
theorem mem_joinChar_of_mem_piece {sep x : Char} {p : List Char}
    {Q : List (List Char)} (hp : p ∈ Q) (hx : x ∈ p) :
    x ∈ joinChar sep Q := by
  induction Q with
  | nil => simp at hp
  | cons q qs ih =>
    rcases List.mem_cons.mp hp with h1 | h1
    · subst h1
      cases qs with
      | nil => exact hx
      | cons r rs =>
        rw [joinChar_cons_of_ne_nil sep p _ (by simp)]
        exact List.mem_append.mpr (Or.inl hx)
    · cases qs with
      | nil => simp at h1
      | cons r rs =>
        rw [joinChar_cons_of_ne_nil sep q _ (by simp)]
        exact List.mem_append.mpr (Or.inr (List.mem_cons_of_mem sep (ih h1)))

/-- A member of a piece of a split is a member of the original list. -/
theorem mem_of_mem_jsSplit {sep x : Char} {p l : List Char}
    (hp : p ∈ jsSplit sep l) (hx : x ∈ p) : x ∈ l := by
  have h := @mem_joinChar_of_mem_piece sep x p (jsSplit sep l) hp hx
  rwa [joinChar_jsSplit] at h

/-- A list whose first and last characters are not whitespace is
unchanged by trimming. -/
theorem trimChars_eq_self {l : List Char}
    (h1 : ∀ x, l.head? = some x → jsWs x = false)
    (h2 : ∀ x, l.getLast? = some x → jsWs x = false) :
    trimChars l = l := by
  cases l with
  | nil => rfl
  | cons c cs =>
    unfold trimChars
    have hc : jsWs c = false := h1 c rfl
    rw [List.dropWhile_cons_of_neg (by simp [hc])]
    rw [List.rdropWhile_eq_self_iff]
    intro hl
    have := h2 ((c :: cs).getLast hl) (List.getLast?_eq_getLast _ hl)
    simp [this]

/-- The head of the trimmed list is not whitespace. -/
theorem trimChars_head_not_ws {l : List Char} {c : Char} {cs : List Char}
    (h : trimChars l = c :: cs) : jsWs c = false := by
  have hpre : trimChars l <+: l.dropWhile jsWs := List.rdropWhile_prefix _ _
  rw [h] at hpre
  rcases hpre with ⟨t, ht⟩
  have hh : (l.dropWhile jsWs).head? = some c := by
    rw [← ht]
    simp
  have hw := List.head?_dropWhile_not jsWs l
  rw [hh] at hw
  exact hw

/-- The last character of the trimmed list is not whitespace. -/
theorem trimChars_getLast_not_ws {l : List Char} {a : Char}
    (h : (trimChars l).getLast? = some a) : jsWs a = false := by
  have hne : trimChars l ≠ [] := by
    intro hcon
    rw [hcon] at h
    simp at h
  have hlast := List.rdropWhile_last_not jsWs (l.dropWhile jsWs) hne
  have heq : (trimChars l).getLast hne = a := by
    have := List.getLast?_eq_getLast (trimChars l) hne
    rw [h] at this
    exact (Option.some_inj.mp this).symm
  rw [← heq]
  simpa using hlast

/-- Canonicalize one comma segment of a raw role string:
`r.trim().split(' ').map(w => w.charAt(0).toUpperCase() + w.slice(1)).join(' ')`. -/
def canonSeg (l : List Char) : List Char :=
  joinChar ' ' ((jsSplit ' ' (trimChars l)).map capWord)

/-- Role split and canonicalization from `processIssueData`: the raw
credit role string is split on commas, each segment canonicalized, and
empty canonical segments are discarded by the `if (!role) return` guard. -/
def canonicalizeRoles (s : String) : List String :=
  (((jsSplit ',' s.data).map canonSeg).filter (fun r => !r.isEmpty)).map
    (fun r => ⟨r⟩)

/-- Structure of a canonicalized segment whose trimmed form is
non-empty: it starts with the uppercased head of the trimmed form. -/
theorem canonSeg_head_structure {l : List Char} {c : Char} {cs : List Char}
    (ht : trimChars l = c :: cs) :
    ∃ h0 t0, jsSplit ' ' (trimChars l) = (c :: h0) :: t0
      ∧ canonSeg l = jsToUpper c :: joinChar ' ' (h0 :: t0.map capWord) := by
  have hc : jsWs c = false := trimChars_head_not_ws ht
  have hcsp : ¬ c = ' ' := by
    intro hcon
    rw [hcon] at hc
    simp [jsWs] at hc
  rcases hsp : jsSplit ' ' cs with _ | ⟨h0, t0⟩
  · exact absurd hsp (jsSplit_ne_nil ' ' cs)
  · refine ⟨h0, t0, ?_, ?_⟩
    · rw [ht, jsSplit, if_neg hcsp, hsp]
      rfl
    · rw [canonSeg, ht, jsSplit, if_neg hcsp, hsp]
      show joinChar ' ' ((jsToUpper c :: h0) :: t0.map capWord) =
        jsToUpper c :: joinChar ' ' (h0 :: t0.map capWord)
      exact joinChar_cons_cons ' ' (jsToUpper c) h0 (t0.map capWord)

/-- The last piece of a split of a list whose last element is not the
separator is non-empty and ends with that element. -/
theorem jsSplit_getLast? {sep : Char} :
    ∀ {l : List Char} {a : Char}, l.getLast? = some a → a ≠ sep →
      ∃ q, (jsSplit sep l).getLast? = some q ∧ q.getLast? = some a := by
  intro l
  induction l with
  | nil => intro a h; simp at h
  | cons c cs ih =>
    intro a h hne
    cases cs with
    | nil =>
      simp only [List.getLast?_singleton, Option.some_inj] at h
      subst h
      have hc : ¬ c = sep := hne
      refine ⟨[c], ?_, rfl⟩
      rw [jsSplit, if_neg hc]
      rfl
    | cons d ds =>
      rw [List.getLast?_cons_cons] at h
      rcases ih h hne with ⟨q, hq1, hq2⟩
      by_cases hc : c = sep
      · rw [jsSplit, if_pos hc]
        refine ⟨q, ?_, hq2⟩
        rcases hsp : jsSplit sep (d :: ds) with _ | ⟨h0, t0⟩
        · exact absurd hsp (jsSplit_ne_nil sep (d :: ds))
        · rw [hsp] at hq1
          rw [List.getLast?_cons_cons]
          exact hq1
      · rw [jsSplit, if_neg hc]
        rcases hsp : jsSplit sep (d :: ds) with _ | ⟨h0, t0⟩
        · exact absurd hsp (jsSplit_ne_nil sep (d :: ds))
        · rw [hsp] at hq1
          cases t0 with
          | nil =>
            obtain rfl : h0 = q := by simpa using hq1
            refine ⟨c :: h0, by simp, ?_⟩
            have hqne : h0 ≠ [] := by
              intro hcon
              rw [hcon] at hq2
              simp at hq2
            cases h0 with
            | nil => exact absurd rfl hqne
            | cons e es => rw [List.getLast?_cons_cons]; exact hq2
          | cons u us =>
            refine ⟨q, ?_, hq2⟩
            rw [List.getLast?_cons_cons] at hq1
            show ((c :: h0) :: u :: us).getLast? = some q
            rw [List.getLast?_cons_cons]
            exact hq1

/-- Capitalizing a word keeps its non-whitespace last character
non-whitespace. -/
theorem capWord_getLast_not_ws {q : List Char} {a : Char}
    (h : q.getLast? = some a) (hw : jsWs a = false) :
    ∃ b, (capWord q).getLast? = some b ∧ jsWs b = false := by
  cases q with
  | nil => simp at h
  | cons c cs =>
    cases cs with
    | nil =>
      obtain rfl : c = a := by simpa using h
      refine ⟨jsToUpper c, ?_, by rw [jsWs_jsToUpper]; exact hw⟩
      show [jsToUpper c].getLast? = some (jsToUpper c)
      simp
    | cons d ds =>
      rw [List.getLast?_cons_cons] at h
      refine ⟨a, ?_, hw⟩
      show (jsToUpper c :: d :: ds).getLast? = some a
      rw [List.getLast?_cons_cons]
      exact h

/-- Mapping preserves the last element. -/
theorem map_getLast?_some {α β : Type} (f : α → β) :
    ∀ {L : List α} {x : α}, L.getLast? = some x →
      (L.map f).getLast? = some (f x) := by
  intro L
  induction L with
  | nil => intro x h; simp at h
  | cons a as ih =>
    intro x h
    cases as with
    | nil =>
      obtain rfl : a = x := by simpa using h
      simp
    | cons b bs =>
      rw [List.getLast?_cons_cons] at h
      rw [List.map_cons, List.map_cons, List.getLast?_cons_cons,
        ← List.map_cons]
      exact ih h

/-- The last character of a join is the last character of the last
piece, when that piece is non-empty. -/
theorem joinChar_getLast? (sep : Char) :
    ∀ {Q : List (List Char)} {q : List Char} {a : Char},
      Q.getLast? = some q → q.getLast? = some a →
      (joinChar sep Q).getLast? = some a := by
  intro Q
  induction Q with
  | nil => intro q a h _; simp at h
  | cons p ps ih =>
    intro q a h hq
    cases ps with
    | nil =>
      obtain rfl : p = q := by simpa using h
      exact hq
    | cons r rs =>
      rw [List.getLast?_cons_cons] at h
      have hrec := ih h hq
      rw [joinChar_cons_of_ne_nil sep p _ (by simp)]
      have hne : joinChar sep (r :: rs) ≠ [] := by
        intro hcon
        rw [hcon] at hrec
        simp at hrec
      have happ : (p ++ sep :: joinChar sep (r :: rs)).getLast? =
          (sep :: joinChar sep (r :: rs)).getLast? := by
        rw [List.getLast?_append_of_ne_nil]
        simp
      rw [happ]
      cases hj : joinChar sep (r :: rs) with
      | nil => exact absurd hj hne
      | cons u us =>
        rw [hj] at hrec
        rw [List.getLast?_cons_cons]
        exact hrec

/-- A canonicalized segment is unchanged by trimming. -/
theorem trimChars_canonSeg (l : List Char) :
    trimChars (canonSeg l) = canonSeg l := by
  rcases ht : trimChars l with _ | ⟨c, cs⟩
  · have hnil : canonSeg l = [] := by
      rw [canonSeg, ht]
      rfl
    rw [hnil]
    rfl
  · rcases canonSeg_head_structure ht with ⟨h0, t0, hsp, hform⟩
    have hahead : jsWs (jsToUpper c) = false := by
      rw [jsWs_jsToUpper]
      exact trimChars_head_not_ws ht
    have htne : trimChars l ≠ [] := by rw [ht]; simp
    obtain ⟨a, ha⟩ : ∃ a, (trimChars l).getLast? = some a := by
      rw [ht]
      exact ⟨(c :: cs).getLast (by simp), List.getLast?_eq_getLast _ _⟩
    have haw : jsWs a = false := trimChars_getLast_not_ws ha
    have hasp : a ≠ ' ' := by
      intro hcon
      rw [hcon] at haw
      simp [jsWs] at haw
    obtain ⟨q, hq1, hq2⟩ := @jsSplit_getLast? ' ' (trimChars l) a ha hasp
    obtain ⟨b, hb1, hb2⟩ := capWord_getLast_not_ws hq2 haw
    have hmapped := map_getLast?_some capWord hq1
    have hlast : (canonSeg l).getLast? = some b :=
      joinChar_getLast? ' ' hmapped hb1
    apply trimChars_eq_self
    · intro x hx
      rw [hform] at hx
      simp only [List.head?_cons, Option.some_inj] at hx
      subst hx
      exact hahead
    · intro x hx
      rw [hlast] at hx
      obtain rfl : b = x := Option.some_inj.mp hx
      exact hb2

/-- Canonicalizing a segment twice gives the same result as once. -/
theorem canonSeg_idem (l : List Char) : canonSeg (canonSeg l) = canonSeg l := by
  have h1 : canonSeg (canonSeg l) =
      joinChar ' ' ((jsSplit ' ' (canonSeg l)).map capWord) := by
    rw [canonSeg, trimChars_canonSeg]
  have hQ : jsSplit ' ' (canonSeg l) =
      (jsSplit ' ' (trimChars l)).map capWord := by
    apply jsSplit_joinChar
    · simp [jsSplit_ne_nil]
    · intro p hp
      rcases List.mem_map.mp hp with ⟨p0, hp0, rfl⟩
      exact space_not_mem_capWord (jsSplit_not_mem ' ' (trimChars l) p0 hp0)
  rw [h1, hQ, List.map_map]
  rw [canonSeg]
  congr 1
  apply List.map_congr_left
  intro p _
  exact capWord_capWord p

/-- Uppercasing only produces a comma from a comma. -/
theorem jsToUpper_eq_comma {c : Char} (h : jsToUpper c = ',') : c = ',' := by
  unfold jsToUpper at h
  by_cases hr : 97 ≤ c.toNat ∧ c.toNat ≤ 122
  · rw [if_pos hr] at h
    have hval : (Char.ofNat (c.toNat - 32)).toNat = c.toNat - 32 :=
      toNat_ofNat_valid (by omega)
    rw [h] at hval
    have : (',' : Char).toNat = 44 := rfl
    omega
  · rwa [if_neg hr] at h

/-- Canonicalizing a segment introduces no comma. -/
theorem comma_not_mem_canonSeg {l : List Char} (h : ',' ∉ l) :
    ',' ∉ canonSeg l := by
  intro hmem
  rcases mem_joinChar hmem with hsep | ⟨p, hp, hx⟩
  · simp at hsep
  · rcases List.mem_map.mp hp with ⟨p0, hp0, rfl⟩
    have hsub : ∀ y, y ∈ p0 → y ∈ l := fun y hy =>
      mem_trimChars (mem_of_mem_jsSplit hp0 hy)
    cases p0 with
    | nil => simp [capWord] at hx
    | cons c0 cs0 =>
      simp only [capWord] at hx
      rcases List.mem_cons.mp hx with h1 | h1
      · have hc0 : c0 = ',' := jsToUpper_eq_comma h1.symm
        subst hc0
        exact h (hsub ',' (List.mem_cons_self _ _))
      · exact h (hsub ',' (List.mem_cons_of_mem c0 h1))

/-- Auxiliary: a bind by a function fixing every member is the identity. -/
theorem flatMap_eq_self_of_fixes {α : Type} {L : List α} {f : α → List α}
    (h : ∀ x ∈ L, f x = [x]) : L.flatMap f = L := by
  induction L with
  | nil => rfl
  | cons a as ih =>
    rw [List.flatMap_cons, h a (List.mem_cons_self a as),
      ih (fun x hx => h x (List.mem_cons_of_mem a hx))]
    rfl

/-- C6: role canonicalization (split on commas, trim each segment,
capitalize the first letter of each word with the rest unchanged, rejoin
with single spaces, discard empty segments) is idempotent: feeding every
role it produces back through the canonicalizer reproduces exactly the
same list of roles. -/
theorem canonicalizeRoles_idempotent (s : String) :
    (canonicalizeRoles s).flatMap canonicalizeRoles = canonicalizeRoles s := by
  apply flatMap_eq_self_of_fixes
  intro r hr
  rcases List.mem_map.mp hr with ⟨cr, hcr, rfl⟩
  have hfil := List.mem_filter.mp hcr
  rcases List.mem_map.mp hfil.1 with ⟨seg, hseg, rfl⟩
  have hnotcomma : ',' ∉ canonSeg seg :=
    comma_not_mem_canonSeg (jsSplit_not_mem ',' s.data seg hseg)
  show canonicalizeRoles ⟨canonSeg seg⟩ = [⟨canonSeg seg⟩]
  rw [canonicalizeRoles]
  have hdata : (String.mk (canonSeg seg)).data = canonSeg seg := rfl
  rw [hdata, jsSplit_eq_single hnotcomma, List.map_singleton,
    canonSeg_idem]
  have hne : (!(canonSeg seg).isEmpty) = true := hfil.2
  rw [List.filter_singleton, hne]
  rfl

/-! ## Date decomposition (claim C1)

Source (`parseCreatorDate`, revised version): parse with `new Date`,
reject implausible years (< 100), then narrow the emitted fields using
the regexes over the original string. JavaScript `Date` parsing is
modelled on the ISO forms `yyyy`, `yyyy-mm` and `yyyy-mm-dd`. -/

/-- A partial date as emitted by the date decomposer. -/
structure DateTimeInfo where
  value : String
  year : Option Nat
  month : Option Nat
  day : Option Nat
deriving DecidableEq, Repr

/-- ASCII digit test. -/
def isDigit (c : Char) : Bool := 48 ≤ c.toNat && c.toNat ≤ 57

/-- Numeric value of an ASCII digit. -/
def digitVal (c : Char) : Nat := c.toNat - 48

/-- Value of a four-digit group. -/
def val4 (a b c d : Char) : Nat :=
  digitVal a * 1000 + digitVal b * 100 + digitVal c * 10 + digitVal d

/-- Value of a two-digit group. -/
def val2 (a b : Char) : Nat := digitVal a * 10 + digitVal b

/-- The regex `/^\d{4}$/` on the underlying character list. -/
def yearOnlyFormL : List Char → Bool
  | [a, b, c, d] => isDigit a && isDigit b && isDigit c && isDigit d
  | _ => false

/-- The regex `/^\d{4}$/`. -/
def yearOnlyForm (s : String) : Bool := yearOnlyFormL s.data

/-- The regex `/^\d{4}-\d{2}$/` on the underlying character list. -/
def yearMonthFormL : List Char → Bool
  | [a, b, c, d, h, e, f] =>
    isDigit a && isDigit b && isDigit c && isDigit d && h = '-' &&
    isDigit e && isDigit f
  | _ => false

/-- The regex `/^\d{4}-\d{2}$/`. -/
def yearMonthForm (s : String) : Bool := yearMonthFormL s.data

/-- Gregorian leap year rule used by `Date`. -/
def isLeapYear (y : Nat) : Bool :=
  (y % 4 = 0 && !(y % 100 = 0)) || y % 400 = 0

/-- Days in a month, as validated by the `Date` parser. -/
def daysInMonth (y m : Nat) : Nat :=
  if m = 2 then (if isLeapYear y then 29 else 28)
  else if m = 4 || m = 6 || m = 9 || m = 11 then 30
  else 31

/-- Model of ECMAScript `new Date(s)` restricted to the ISO date-only
grammars `yyyy`, `yyyy-mm` and `yyyy-mm-dd`: returns the UTC year,
month (1-12) and day of month, or `none` when the string does not parse
as a valid date. -/
def jsParseDate (s : String) : Option (Nat × Nat × Nat) :=
  match s.data with
  | [a, b, c, d] =>
    if isDigit a && isDigit b && isDigit c && isDigit d then
      some (val4 a b c d, 1, 1)
    else none
  | [a, b, c, d, h, e, f] =>
    if isDigit a && isDigit b && isDigit c && isDigit d && h = '-' &&
        isDigit e && isDigit f then
      let y := val4 a b c d
      let m := val2 e f
      if 1 ≤ m ∧ m ≤ 12 then some (y, m, 1) else none
    else none
  | [a, b, c, d, h1, e, f, h2, g, i] =>
    if isDigit a && isDigit b && isDigit c && isDigit d && h1 = '-' &&
        isDigit e && isDigit f && h2 = '-' && isDigit g && isDigit i then
      let y := val4 a b c d
      let m := val2 e f
      let dd := val2 g i
      if 1 ≤ m ∧ m ≤ 12 ∧ 1 ≤ dd ∧ dd ≤ daysInMonth y m then
        some (y, m, dd)
      else none
    else none
  | _ => none

/-- Model of `parseCreatorDate` from the source (revised version):
`new Date` parse, implausible-year guard, then regex narrowing of the
emitted fields; unparseable strings keep only the original value;
null or empty input yields no date object. -/
def parseCreatorDate (dateString : Option String) : Option DateTimeInfo :=
  match dateString with
  | none => none
  | some s =>
    if s = "" then none
    else
      match jsParseDate s with
      | some (y, m, d) =>
        if y < 100 then some ⟨s, none, none, none⟩
        else if yearOnlyForm s then some ⟨s, some y, none, none⟩
        else if yearMonthForm s then some ⟨s, some y, some m, none⟩
        else some ⟨s, some y, some m, some d⟩
      | none => some ⟨s, none, none, none⟩

/-- A year-month string is not empty and not a bare year. -/
theorem yearMonthForm_shape {s : String} (h : yearMonthForm s = true) :
    s ≠ "" ∧ yearOnlyForm s = false := by
  unfold yearMonthForm yearMonthFormL at h
  split at h
  · rename_i a b c d hh e f heq
    constructor
    · intro hcon
      rw [hcon] at heq
      simp at heq
    · unfold yearOnlyForm yearOnlyFormL
      rw [heq]
  · exact absurd h (by simp)

/-- A bare-year string is not empty. -/
theorem yearOnlyForm_ne_empty {s : String} (h : yearOnlyForm s = true) :
    s ≠ "" := by
  unfold yearOnlyForm yearOnlyFormL at h
  split at h
  · rename_i a b c d heq
    intro hcon
    rw [hcon] at heq
    simp at heq
  · exact absurd h (by simp)

/-- C1 counterexample: "0050-09" is a year-month string that parses as a
valid date, yet the decomposer emits only the original value, with no
year and no month field, because the parsed year is below 100. -/
theorem parseCreatorDate_yearMonth_counterexample :
    yearMonthForm "0050-09" = true
    ∧ jsParseDate "0050-09" = some (50, 9, 1)
    ∧ parseCreatorDate (some "0050-09") = some ⟨"0050-09", none, none, none⟩
    ∧ parseCreatorDate (some "0050-09") ≠
        some ⟨"0050-09", some 50, some 9, none⟩ := by
  refine ⟨by decide, by decide, by decide, by decide⟩

/-- C1 (amended with the plausible-year guard): a parseable year-month
string with year at least 100 yields value, year and month and no day;
a parseable bare 4-digit year of at least 100 yields value and year
only; a string that fails to parse yields only the original value; and
null or empty input yields no date object. -/
theorem parseCreatorDate_decomposition :
    (∀ s y m d, yearMonthForm s = true → jsParseDate s = some (y, m, d) →
        100 ≤ y → parseCreatorDate (some s) = some ⟨s, some y, some m, none⟩)
    ∧ (∀ s y m d, yearOnlyForm s = true → jsParseDate s = some (y, m, d) →
        100 ≤ y → parseCreatorDate (some s) = some ⟨s, some y, none, none⟩)
    ∧ (∀ s, s ≠ "" → jsParseDate s = none →
        parseCreatorDate (some s) = some ⟨s, none, none, none⟩)
    ∧ parseCreatorDate none = none
    ∧ parseCreatorDate (some "") = none := by
  refine ⟨?_, ?_, ?_, rfl, rfl⟩
  · intro s y m d hform hparse hy
    obtain ⟨hne, hyo⟩ := yearMonthForm_shape hform
    have hylt : ¬ y < 100 := by omega
    simp only [parseCreatorDate]
    rw [if_neg hne, hparse]
    simp [hylt, hyo, hform]
  · intro s y m d hform hparse hy
    have hne := yearOnlyForm_ne_empty hform
    have hylt : ¬ y < 100 := by omega
    simp only [parseCreatorDate]
    rw [if_neg hne, hparse]
    simp [hylt, hform]
  · intro s hne hparse
    simp only [parseCreatorDate]
    rw [if_neg hne, hparse]

/-- Witness for C1: the amended theorem applied to the concrete inputs
"1986-09", "1986" and the unparseable "September 1986". -/
theorem parseCreatorDate_decomposition_witness :
    parseCreatorDate (some "1986-09") = some ⟨"1986-09", some 1986, some 9, none⟩
    ∧ parseCreatorDate (some "1986") = some ⟨"1986", some 1986, none, none⟩
    ∧ parseCreatorDate (some "September 1986") =
        some ⟨"September 1986", none, none, none⟩ :=
  ⟨parseCreatorDate_decomposition.1 "1986-09" 1986 9 1 (by decide) (by decide)
      (by decide),
   parseCreatorDate_decomposition.2.1 "1986" 1986 1 1 (by decide) (by decide)
      (by decide),
   parseCreatorDate_decomposition.2.2.1 "September 1986" (by decide) (by decide)⟩

/-! ## Rate-limited fetch client (claims C8, C9)

Source (`rateLimitedFetch`, revised version):
```
const now = Date.now();
const timeSinceLastRequest = now - this.lastRequestTime;
if (timeSinceLastRequest < this.rateLimitDelay) {
  await new Promise(resolve => setTimeout(resolve, this.rateLimitDelay - timeSinceLastRequest));
}
this.lastRequestTime = Date.now();
const response = await requestUrl({ url: url, ... });
if (response.status !== 200) { throw ... }
return response.json;
```
The `abortSignal` parameter is accepted but never consulted. Time is
modelled by an ideal clock: the timer fires exactly after the requested
delay, so the dispatch happens at `last + delay` when the call starts
inside the spacing window, and at the call start time otherwise. -/

/-- Error kinds surfaced by the fetch client. -/
inductive FetchError where
  | http (status : Nat)
deriving DecidableEq, Repr

/-- The time at which a call entering the client at `now` dispatches its
request, given the previous dispatch time `last` and the configured
minimum spacing `delay`. -/
def nextDispatch (delay last now : Nat) : Nat :=
  if now < last + delay then last + delay else now

/-- Model of `rateLimitedFetch` (revised version): returns the updated
`lastRequestTime` and the call result. The `abortedDuringDelay` input
records whether the caller-supplied abort signal fired while the call
was suspended in the spacing delay; the source never reads the signal,
which the theorems below make explicit. -/
def rateLimitedFetch (delay last now : Nat) (abortedDuringDelay : Bool)
    (status : Nat) (body : String) : Nat × Except FetchError String :=
  (nextDispatch delay last now,
    if status ≠ 200 then Except.error (FetchError.http status)
    else Except.ok body)

/-- Dispatch times of a sequence of sequential calls through one client:
each call observes the `lastRequestTime` written by the previous one. -/
def dispatchSchedule (delay : Nat) : Nat → List Nat → List Nat
  | _, [] => []
  | last, now :: rest =>
    nextDispatch delay last now :: dispatchSchedule delay (nextDispatch delay last now) rest

/-- C8 evaluation: the revised client ignores the abort signal. A call
that enters the spacing window and is aborted during the delay still
dispatches and returns the network result, identically to an unaborted
call; triggering the signal during the delay never produces a
distinguished cancellation failure. -/
theorem rateLimitedFetch_ignores_abort :
    rateLimitedFetch 1000 0 500 true 200 "body" = (1000, Except.ok "body")
    ∧ ∀ delay last now status body,
        rateLimitedFetch delay last now true status body =
          rateLimitedFetch delay last now false status body := by
  exact ⟨rfl, fun _ _ _ _ _ => rfl⟩

/-- C9: if less than the configured interval has elapsed since the last
dispatch, the call dispatches exactly at the previous dispatch time plus
the interval (it waits the remainder measured from the previous dispatch,
not from its own start); consequently consecutive dispatches through one
client, beginning from any previous dispatch time, are never spaced
closer than the interval. -/
theorem rateLimitedFetch_spacing :
    (∀ delay last now, now < last + delay →
        nextDispatch delay last now = last + delay)
    ∧ (∀ delay last now abortedDuringDelay status body,
        (rateLimitedFetch delay last now abortedDuringDelay status body).1 =
          nextDispatch delay last now)
    ∧ ∀ delay last calls,
        List.Chain (fun a b => a + delay ≤ b) last
          (dispatchSchedule delay last calls) := by
  refine ⟨fun delay last now h => if_pos h, fun _ _ _ _ _ _ => rfl, ?_⟩
  intro delay last calls
  induction calls generalizing last with
  | nil => exact List.Chain.nil
  | cons now rest ih =>
    refine List.Chain.cons ?_ (ih (nextDispatch delay last now))
    unfold nextDispatch
    split
    · exact Nat.le_refl _
    · omega

/-- Witness for C9: with a 1000 ms interval, a previous dispatch at time
0 and a call starting at time 400, the call dispatches exactly at 1000,
and the dispatches of calls starting at 400, 1100 and 1200 are spaced at
least 1000 apart. -/
theorem rateLimitedFetch_spacing_witness :
    nextDispatch 1000 0 400 = 1000
    ∧ List.Chain (fun a b => a + 1000 ≤ b) 0 (dispatchSchedule 1000 0 [400, 1100, 1200]) :=
  ⟨rateLimitedFetch_spacing.1 1000 0 400 (by decide),
   rateLimitedFetch_spacing.2.2 1000 0 [400, 1100, 1200]⟩

/-! ## Document store model (claims C3, C4, C5, C10)

The vault is modelled as association lists from file path to document.
A person document is its structured header (`PersonFM`, the parsed
frontmatter, with `extra` holding user-authored fields the engine never
touches) plus `tail`, the raw text following the closing header
delimiter. Reading a document through `parseFrontmatter` captures the
body with the regex `/^---\s*[\r\n]+([\s\S]*?)[\r\n]+---\s*[\r\n]?([\s\S]*)$/`,
whose greedy `\s*` strips the whitespace at the start of the tail;
`buildFrontmatter` writes the header, one newline, and `body.trimStart()`.
Role-concept documents keep the fields the engine reads back
(name and the `subConceptOf` link); their static scalar fields
(tags, dates, description) are never consulted and are omitted. -/

/-- A role-concept document. -/
structure RoleDoc where
  name : String
  subConceptOf : Option String
deriving DecidableEq, Repr

/-- The structured header of a person document. -/
structure PersonFM where
  entityType : Option String
  name : Option String
  comicVineId : Option Nat
  comicVineUrl : Option String
  aliases : Option (List String)
  tags : Option (List String)
  creationDate : Option String
  modificationDate : Option String
  birthDate : Option DateTimeInfo
  deathDate : Option DateTimeInfo
  image : Option String
  roles : Option (List String)
  credits : Option (List (String × String))
  extra : List (String × String)
deriving DecidableEq, Repr

/-- The empty header (`frontmatter = {}`). -/
def PersonFM.empty : PersonFM :=
  ⟨none, none, none, none, none, none, none, none, none, none, none, none,
   none, []⟩

/-- A person document: structured header plus raw post-header text. -/
structure PersonDoc where
  fm : PersonFM
  tail : String
deriving DecidableEq, Repr

/-- The document store: person files and role-concept files. -/
structure Vault where
  people : List (String × PersonDoc)
  concepts : List (String × RoleDoc)
deriving DecidableEq, Repr

/-- The empty vault. -/
def Vault.empty : Vault := ⟨[], []⟩

/-- The body captured by the `parseFrontmatter` regex: the tail with its
leading whitespace consumed by the greedy delimiter match. -/
def parsedBody (d : PersonDoc) : String := jsTrimStart d.tail

/-- Model of `buildFrontmatter`: the rewritten document carries the
merged header and re-attaches the body after the closing delimiter as
one newline followed by `body.trimStart()`. -/
def buildFrontmatter (fm : PersonFM) (body : String) : PersonDoc :=
  ⟨fm, "\n" ++ jsTrimStart body⟩

/-! ## Role-concept resolution (claims C4, C10)

Source (`getOrCreateRoleNote`). -/

/-- The static parent-role table of `getOrCreateRoleNote`. -/
def roleHierarchy : List (String × String) :=
  [("Penciler", "Artist"), ("Penciller", "Artist"), ("Inker", "Artist"),
   ("Colorist", "Artist"), ("Cover artist", "Artist"), ("Script", "Writer")]

/-- `roleName.charAt(0).toUpperCase() + roleName.slice(1).trim()`. -/
def capRoleName (r : String) : String :=
  match r.data with
  | [] => ""
  | c :: cs => ⟨jsToUpper c :: trimChars cs⟩

/-- The role-concept file name for a raw role name. -/
def roleFilename (r : String) : String :=
  sanitizeForFileName (capRoleName r) ++ " (Role).md"

/-- The basename (file name without extension) used in role links. -/
def roleBasename (r : String) : String :=
  sanitizeForFileName (capRoleName r) ++ " (Role)"

/-- Model of `getOrCreateRoleNote`, parameterized by the parent-role
table and by a recursion-depth fuel; `none` models a resolution that
never returns (the recursion exceeds every depth bound). Returns the
basename of the role document and the updated vault; the parent is
created by the recursive call before the child document is written. -/
def resolveRole (table : List (String × String)) :
    Nat → Vault → String → Option (String × Vault)
  | 0, _, _ => none
  | fuel + 1, v, roleName =>
    if (v.concepts.lookup (roleFilename roleName)).isSome then
      some (roleBasename roleName, v)
    else
      match table.lookup (capRoleName roleName) with
      | some parentName =>
        (resolveRole table fuel v parentName).map (fun pv =>
          (roleBasename roleName,
            { pv.2 with concepts := pv.2.concepts ++
                [(roleFilename roleName,
                  ⟨capRoleName roleName, some ("[[" ++ pv.1 ++ "]]")⟩)] }))
      | none =>
        some (roleBasename roleName,
          { v with concepts := v.concepts ++
              [(roleFilename roleName, ⟨capRoleName roleName, none⟩)] })

/-! ## Person-note upsert engine (claims C3, C5)

Source (`findPersonNote`, `ensureCreatorNotesExist`), with
`createCreatorNotes` enabled and image downloading disabled as in the
default settings. The `getPersonDetails` network call is modelled as a
function from the creator id (the identity underlying the
`api_detail_url`) to an optional result; `none` is a failed fetch,
which the engine reports and skips (`continue`). -/

/-- One entry of `person_credits`. -/
structure Credit where
  id : Nat
  name : String
  role : String
deriving DecidableEq, Repr

/-- The person details returned by `getPersonDetails`
(`death` is the unwrapped `death?.date || null`). -/
structure PersonDetails where
  id : Nat
  name : String
  siteUrl : String
  birth : Option String
  death : Option String
deriving DecidableEq, Repr

/-- `c.role.split(',').map(r => r.trim())`. -/
def splitRoles (role : String) : List String :=
  (jsSplit ',' role.data).map (fun seg => ⟨trimChars seg⟩)

/-- A deduplicated creator with its accumulated role strings. -/
structure UCreator where
  id : Nat
  name : String
  roles : List String
deriving DecidableEq, Repr

/-- One step of building the `uniqueCreators` map: a repeated id appends
its split roles to the existing entry, a new id is appended. -/
def addCreator (acc : List UCreator) (c : Credit) : List UCreator :=
  if acc.any (fun u => u.id == c.id) then
    acc.map (fun u =>
      if u.id == c.id then { u with roles := u.roles ++ splitRoles c.role }
      else u)
  else
    acc ++ [⟨c.id, c.name, splitRoles c.role⟩]

/-- The deduplicated creators in first-occurrence order. -/
def uniqueCreators (credits : List Credit) : List UCreator :=
  credits.foldl addCreator []

/-- `new Set(creator.roles)`: deduplicate keeping first occurrences. -/
def dedupKeepFirst (roles : List String) : List String :=
  roles.foldl (fun acc r => if acc.contains r then acc else acc ++ [r]) []

/-- Model of `findPersonNote`: scan the people folder for a cached
header whose `comicVineId` matches, else fall back to the
sanitized-name file path. Returns the path of the match. -/
def findPersonNote (v : Vault) (creatorId : Nat) (creatorName : String) :
    Option String :=
  match v.people.find? (fun e => e.2.fm.comicVineId == some creatorId) with
  | some e => some e.1
  | none =>
    let nameBasedPath := sanitizeForFileName creatorName ++ ".md"
    if (v.people.lookup nameBasedPath).isSome then some nameBasedPath
    else none

/-- JavaScript falsiness of an optional string field
(absent or empty). -/
def falsyStr : Option String → Bool
  | none => true
  | some s => s == ""

/-- JavaScript falsiness of an optional numeric field
(absent or zero). -/
def falsyNat : Option Nat → Bool
  | none => true
  | some n => n == 0

/-- The scalar-field merge inside the try block of
`ensureCreatorNotesExist`: populate absent (falsy) identity fields,
migrate the legacy ComicCreator entity type, initialize a new file,
refresh the modification date, and fill absent birth/death dates.
Returns the merged header and the `changed` flag. The source performs
these writes sequentially on one mutable object, but every conditional
reads only the field it writes, so the parallel per-field form below is
exactly equivalent. -/
def mergeCore (fm0 : PersonFM) (isNew : Bool) (det : PersonDetails)
    (now : String) : PersonFM × Bool :=
  let chEntity := falsyStr fm0.entityType || fm0.entityType == some "ComicCreator"
  let chName := falsyStr fm0.name
  let chId := falsyNat fm0.comicVineId
  let chUrl := falsyStr fm0.comicVineUrl
  let chBirth := (parseCreatorDate det.birth).isSome && fm0.birthDate.isNone
  let chDeath := (parseCreatorDate det.death).isSome && fm0.deathDate.isNone
  ({ fm0 with
      entityType := if chEntity then some "Person" else fm0.entityType,
      name := if chName then some det.name else fm0.name,
      comicVineId := if chId then some det.id else fm0.comicVineId,
      comicVineUrl := if chUrl then some det.siteUrl else fm0.comicVineUrl,
      aliases := if isNew then some [] else fm0.aliases,
      tags := if isNew then some ["person", "comic-creator"] else fm0.tags,
      creationDate := if isNew then some now else fm0.creationDate,
      modificationDate := some now,
      birthDate := if chBirth then parseCreatorDate det.birth else fm0.birthDate,
      deathDate := if chDeath then parseCreatorDate det.death else fm0.deathDate },
   chEntity || chName || chId || chUrl || isNew || chBirth || chDeath)

/-- `if (!frontmatter.roles) frontmatter.roles = []` and the analogous
initializations for credits and tags. -/
def ensureListFields (fm : PersonFM) : PersonFM :=
  { fm with roles := some (fm.roles.getD []),
            credits := some (fm.credits.getD []),
            tags := some (fm.tags.getD []) }

/-- Push the person and comic-creator tags when absent. -/
def addTagsStep (fm : PersonFM) (ch : Bool) : PersonFM × Bool :=
  let tags := fm.tags.getD []
  let s1 := if tags.contains "person" then (tags, ch)
    else (tags ++ ["person"], true)
  let s2 := if s1.1.contains "comic-creator" then s1
    else (s1.1 ++ ["comic-creator"], true)
  ({ fm with tags := some s2.1 }, s2.2)

/-- The wikilink to a resolved role document. -/
def roleLink (roleName : String) : String :=
  "[[" ++ roleBasename roleName ++ "]]"

/-- The per-role loop of `ensureCreatorNotesExist`: resolve or create
the role document, add the role link and the (role, work) credit pair
when absent. Role resolution uses fuel 2, which the termination theorem
on the static table shows is always sufficient, so the fallback of
`getD` is never taken. The source makes the role and credit additions as
two sequential conditional writes to distinct fields; the per-field form
below is equivalent (a `contains` test on an absent list is false, so
the absent-field case always appends). -/
def rolesLoop (issueBasename : String) :
    List String → PersonFM → Vault → Bool → PersonFM × Vault × Bool
  | [], fm, v, ch => (fm, v, ch)
  | roleName :: rest, fm, v, ch =>
    if roleName = "" then rolesLoop issueBasename rest fm v ch
    else
      let res := (resolveRole roleHierarchy 2 v roleName).getD
        (roleBasename roleName, v)
      let rl := "[[" ++ res.1 ++ "]]"
      let issueLink := "[[" ++ issueBasename ++ "]]"
      let roles := fm.roles.getD []
      let credits := fm.credits.getD []
      let hasRole := roles.contains rl
      let hasCredit := credits.contains (rl, issueLink)
      rolesLoop issueBasename rest
        { fm with
          roles := some (if hasRole then roles else roles ++ [rl]),
          credits := some
            (if hasCredit then credits else credits ++ [(rl, issueLink)]) }
        res.2
        (ch || !hasRole || !hasCredit)

/-- `frontmatter.roles.sort()`. -/
def sortRolesList (roles : List String) : List String :=
  roles.insertionSort (fun a b => a ≤ b)

/-- Model of the per-creator body of `ensureCreatorNotesExist`: locate
the existing document, read its header and body (or initialize a fresh
header and body), fetch the person details (a failure skips this
creator), merge, process roles and credits, and write the document only
when something changed. -/
def processCreator (fetch : Nat → Option PersonDetails) (now : String)
    (issueBasename : String) (v : Vault) (u : UCreator) : Vault :=
  let foundPath := findPersonNote v u.id u.name
  let start :=
    match foundPath with
    | some p =>
      match v.people.lookup p with
      | some d => (d.fm, parsedBody d)
      | none => (PersonFM.empty, "")
    | none => (PersonFM.empty, "# " ++ u.name ++ "\n\n")
  match fetch u.id with
  | none => v
  | some det =>
    let m := mergeCore start.1 foundPath.isNone det now
    let fm2 := ensureListFields m.1
    let t := addTagsStep fm2 m.2
    let r := rolesLoop issueBasename (dedupKeepFirst u.roles) t.1 v t.2
    if r.2.2 then
      let fm5 := { r.1 with
        roles := some (sortRolesList (r.1.roles.getD [])),
        modificationDate := some now }
      let doc := buildFrontmatter fm5 start.2
      match foundPath with
      | some p =>
        { r.2.1 with
          people := r.2.1.people.map (fun e => if e.1 = p then (p, doc) else e) }
      | none =>
        { r.2.1 with
          people := r.2.1.people ++ [(sanitizeForFileName u.name ++ ".md", doc)] }
    else r.2.1

/-- Model of `ensureCreatorNotesExist` with `createCreatorNotes`
enabled: deduplicate the credited persons by id, then resolve, merge
and write each one in order. -/
def ensureCreatorNotesExist (fetch : Nat → Option PersonDetails)
    (now : String) (issueBasename : String) (credits : List Credit)
    (v : Vault) : Vault :=
  (uniqueCreators credits).foldl (processCreator fetch now issueBasename) v

/-! ## Theorems on role-concept resolution (claims C4, C10) -/

/-- A hypothetical cyclic parent-role table. -/
def cyclicTable : List (String × String) := [("A", "B"), ("B", "A")]

/-- On a cyclic table the resolver revisits the names forever: no fuel
bound suffices for either name. -/
theorem resolveRole_cyclic_aux : ∀ n : Nat,
    resolveRole cyclicTable n Vault.empty "A" = none ∧
    resolveRole cyclicTable n Vault.empty "B" = none := by
  intro n
  induction n with
  | zero => exact ⟨rfl, rfl⟩
  | succ k ih =>
    constructor
    · rw [resolveRole, if_neg (by decide)]
      have h2 : cyclicTable.lookup (capRoleName "A") = some "B" := by decide
      rw [h2]
      simp [ih.2]
    · rw [resolveRole, if_neg (by decide)]
      have h2 : cyclicTable.lookup (capRoleName "B") = some "A" := by decide
      rw [h2]
      simp [ih.1]

/-- C10 counterexample: role-concept resolution has no visited-name
cycle guard. On a cyclic parent table, resolving "A" from an empty store
does not terminate: it exceeds every recursion-depth bound instead of
aborting the resolution of a name already in progress. -/
theorem getOrCreateRoleNote_no_cycle_guard :
    ¬ ∃ n : Nat, (resolveRole cyclicTable n Vault.empty "A").isSome = true := by
  rintro ⟨n, hn⟩
  rw [(resolveRole_cyclic_aux n).1] at hn
  simp at hn

/-- Every parent in the static hierarchy table is Artist or Writer,
neither of which is itself a child key. -/
theorem roleHierarchy_parent_cases {key parent : String}
    (h : roleHierarchy.lookup key = some parent) :
    parent = "Artist" ∨ parent = "Writer" := by
  simp only [roleHierarchy, List.lookup] at h
  repeat' split at h
  all_goals simp_all

/-- C10 (amended): on the actual static hierarchy table, resolution of
every role name from every store terminates within recursion depth 2,
because no parent name is itself a child key; the implementation has no
visited-name cycle guard and would recurse unboundedly on a cyclic
table. -/
theorem getOrCreateRoleNote_terminates_on_static_table :
    ∀ (v : Vault) (name : String) (n : Nat), 2 ≤ n →
      (resolveRole roleHierarchy n v name).isSome = true := by
  intro v name n hn
  obtain ⟨k, rfl⟩ : ∃ k, n = k + 2 := ⟨n - 2, by omega⟩
  by_cases hl : (v.concepts.lookup (roleFilename name)).isSome
  · rw [resolveRole, if_pos hl]
    rfl
  · rw [resolveRole, if_neg hl]
    cases htab : roleHierarchy.lookup (capRoleName name) with
    | none => simp
    | some parent =>
      have hinner : (resolveRole roleHierarchy (k + 1) v parent).isSome = true := by
        rcases roleHierarchy_parent_cases htab with rfl | rfl
        · by_cases hl2 : (v.concepts.lookup (roleFilename "Artist")).isSome
          · rw [resolveRole, if_pos hl2]
            rfl
          · rw [resolveRole, if_neg hl2]
            have ht : roleHierarchy.lookup (capRoleName "Artist") = none := by
              decide
            rw [ht]
            simp
        · by_cases hl2 : (v.concepts.lookup (roleFilename "Writer")).isSome
          · rw [resolveRole, if_pos hl2]
            rfl
          · rw [resolveRole, if_neg hl2]
            have ht : roleHierarchy.lookup (capRoleName "Writer") = none := by
              decide
            rw [ht]
            simp
      obtain ⟨pv, hpv⟩ := Option.isSome_iff_exists.mp hinner
      simp [hpv]

/-- Witness for C10: resolution of the concrete role "Colorist" from the
empty store succeeds within depth 2. -/
theorem getOrCreateRoleNote_terminates_witness :
    (resolveRole roleHierarchy 2 Vault.empty "Colorist").isSome = true :=
  getOrCreateRoleNote_terminates_on_static_table Vault.empty "Colorist" 2
    (Nat.le_refl 2)

/-- The store produced by resolving Penciler from an empty store. -/
def pencilerVault : Vault :=
  ⟨[], [("Artist (Role).md", ⟨"Artist", none⟩),
        ("Penciler (Role).md", ⟨"Penciler", some "[[Artist (Role)]]"⟩)]⟩

/-- C4: resolving "Penciler" against a store with neither role document
creates both the Penciler and the parent Artist role documents, with the
Penciler header carrying a subConceptOf link to Artist; resolving
"Penciler" a second time returns the same document and creates nothing;
and in general, whenever the document for a canonical role name already
exists, resolution returns it and leaves the store unchanged, so each
role document is created at most once per canonical name. -/
theorem getOrCreateRoleNote_penciler_once :
    resolveRole roleHierarchy 2 Vault.empty "Penciler" =
      some ("Penciler (Role)", pencilerVault)
    ∧ resolveRole roleHierarchy 2 pencilerVault "Penciler" =
      some ("Penciler (Role)", pencilerVault)
    ∧ ∀ (v : Vault) (name : String) (n : Nat),
        (v.concepts.lookup (roleFilename name)).isSome = true →
        resolveRole roleHierarchy (n + 1) v name =
          some (roleBasename name, v) := by
  refine ⟨by decide, by decide, ?_⟩
  intro v name n h
  rw [resolveRole, if_pos h]

/-- Witness for C4: the at-most-once clause applied to the concrete
Penciler store, where the Penciler role document already exists. -/
theorem getOrCreateRoleNote_penciler_once_witness :
    resolveRole roleHierarchy 5 pencilerVault "Penciler" =
      some (roleBasename "Penciler", pencilerVault) :=
  getOrCreateRoleNote_penciler_once.2.2 pencilerVault "Penciler" 4 (by decide)

/-! ## Support lemmas on the upsert engine -/

/-- Looking up a key present on the left of an append stays on the left. -/
theorem lookup_append_left_of_isSome {β : Type} {l : List (String × β)}
    (l2 : List (String × β)) {k : String} (h : (l.lookup k).isSome = true) :
    (l ++ l2).lookup k = l.lookup k := by
  induction l with
  | nil => simp at h
  | cons e t ih =>
    by_cases hk : k == e.1
    · simp [List.lookup, hk]
    · simp only [List.lookup, hk, List.cons_append] at *
      exact ih h

/-- A key appended on the right is found. -/
theorem lookup_append_self {β : Type} (l : List (String × β)) (k : String)
    (x : β) : ((l ++ [(k, x)]).lookup k).isSome = true := by
  induction l with
  | nil => simp [List.lookup]
  | cons e t ih =>
    by_cases hk : k == e.1
    · simp [List.lookup, hk]
    · simp only [List.cons_append, List.lookup, hk]
      exact ih

/-- Replacing every entry at path `p` by `doc` makes the lookup of `p`
return `doc`, provided `p` was present. -/
theorem lookup_map_replace {β : Type} {L : List (String × β)} {p : String}
    (doc : β) (h : (L.lookup p).isSome = true) :
    (L.map (fun e => if e.1 = p then (p, doc) else e)).lookup p = some doc := by
  induction L with
  | nil => simp at h
  | cons e t ih =>
    simp only [List.map_cons]
    by_cases hk : e.1 = p
    · rw [if_pos hk]
      simp [List.lookup]
    · rw [if_neg hk]
      have hk2 : (p == e.1) = false :=
        beq_eq_false_iff_ne.mpr (fun hc => hk hc.symm)
      simp only [List.lookup, hk2, cond_false] at h ⊢
      exact ih h

/-- A successful resolution leaves the people folder untouched. -/
theorem resolveRole_people {t : List (String × String)} :
    ∀ {n : Nat} {v : Vault} {r : String} {pv : String × Vault},
      resolveRole t n v r = some pv → pv.2.people = v.people := by
  intro n
  induction n with
  | zero => intro v r pv h; simp [resolveRole] at h
  | succ k ih =>
    intro v r pv h
    rw [resolveRole] at h
    split at h
    · obtain rfl := Option.some_inj.mp h
      rfl
    · split at h
      · rename_i parent hpar
        cases hrec : resolveRole t k v parent with
        | none => rw [hrec] at h; simp at h
        | some pv1 =>
          rw [hrec] at h
          simp only [Option.map_some] at h
          obtain rfl := Option.some_inj.mp h
          show pv1.2.people = v.people
          exact ih hrec
      · obtain rfl := Option.some_inj.mp h
        rfl

/-- A successful resolution returns the canonical basename. -/
theorem resolveRole_basename {t : List (String × String)} :
    ∀ {n : Nat} {v : Vault} {r : String} {pv : String × Vault},
      resolveRole t n v r = some pv → pv.1 = roleBasename r := by
  intro n
  induction n with
  | zero => intro v r pv h; simp [resolveRole] at h
  | succ k ih =>
    intro v r pv h
    rw [resolveRole] at h
    split at h
    · obtain rfl := Option.some_inj.mp h
      rfl
    · split at h
      · rename_i parent hpar
        cases hrec : resolveRole t k v parent with
        | none => rw [hrec] at h; simp at h
        | some pv1 =>
          rw [hrec] at h
          simp only [Option.map_some] at h
          obtain rfl := Option.some_inj.mp h
          rfl
      · obtain rfl := Option.some_inj.mp h
        rfl

/-- Resolution never removes a concept document. -/
theorem resolveRole_concepts_mono {t : List (String × String)} :
    ∀ {n : Nat} {v : Vault} {r : String} {pv : String × Vault},
      resolveRole t n v r = some pv → ∀ f,
      (v.concepts.lookup f).isSome = true →
      (pv.2.concepts.lookup f).isSome = true := by
  intro n
  induction n with
  | zero => intro v r pv h; simp [resolveRole] at h
  | succ k ih =>
    intro v r pv h f hf
    rw [resolveRole] at h
    split at h
    · obtain rfl := Option.some_inj.mp h
      exact hf
    · split at h
      · rename_i parent hpar
        cases hrec : resolveRole t k v parent with
        | none => rw [hrec] at h; simp at h
        | some pv1 =>
          rw [hrec] at h
          simp only [Option.map_some] at h
          obtain rfl := Option.some_inj.mp h
          have h1 := ih hrec f hf
          show ((pv1.2.concepts ++
            [(roleFilename r, RoleDoc.mk (capRoleName r)
              (some ("[[" ++ pv1.1 ++ "]]")))]).lookup f).isSome = true
          rw [lookup_append_left_of_isSome _ h1]
          exact h1
      · obtain rfl := Option.some_inj.mp h
        show ((v.concepts ++ _).lookup f).isSome = true
        rw [lookup_append_left_of_isSome _ hf]
        exact hf

/-- After a successful resolution the role document exists. -/
theorem resolveRole_creates {t : List (String × String)} :
    ∀ {n : Nat} {v : Vault} {r : String} {pv : String × Vault},
      resolveRole t n v r = some pv →
      (pv.2.concepts.lookup (roleFilename r)).isSome = true := by
  intro n
  induction n with
  | zero => intro v r pv h; simp [resolveRole] at h
  | succ k ih =>
    intro v r pv h
    rw [resolveRole] at h
    split at h
    · rename_i hl
      obtain rfl := Option.some_inj.mp h
      exact hl
    · split at h
      · rename_i parent hpar
        cases hrec : resolveRole t k v parent with
        | none => rw [hrec] at h; simp at h
        | some pv1 =>
          rw [hrec] at h
          simp only [Option.map_some] at h
          obtain rfl := Option.some_inj.mp h
          show ((pv1.2.concepts ++
            [(roleFilename r, RoleDoc.mk (capRoleName r)
              (some ("[[" ++ pv1.1 ++ "]]")))]).lookup
                (roleFilename r)).isSome = true
          exact lookup_append_self _ _ _
      · obtain rfl := Option.some_inj.mp h
        show ((v.concepts ++
          [(roleFilename r, RoleDoc.mk (capRoleName r) none)]).lookup
            (roleFilename r)).isSome = true
        exact lookup_append_self _ _ _

/-- Resolution of a role whose document already exists returns it and
leaves the store unchanged. -/
theorem resolveRole_found {t : List (String × String)} {v : Vault}
    {name : String} (n : Nat)
    (h : (v.concepts.lookup (roleFilename name)).isSome = true) :
    resolveRole t (n + 1) v name = some (roleBasename name, v) := by
  rw [resolveRole, if_pos h]

/-- The resolution used by the roles loop (fuel 2 with a fallback that
is never taken) always yields the canonical basename, keeps the people
folder, only grows the concepts, and establishes the role document. -/
theorem resolveRole_loop_spec (v : Vault) (r : String) :
    let res := (resolveRole roleHierarchy 2 v r).getD (roleBasename r, v)
    res.1 = roleBasename r ∧ res.2.people = v.people
    ∧ (∀ f, (v.concepts.lookup f).isSome = true →
        (res.2.concepts.lookup f).isSome = true)
    ∧ (res.2.concepts.lookup (roleFilename r)).isSome = true := by
  have htot := getOrCreateRoleNote_terminates_on_static_table v r 2 (Nat.le_refl 2)
  obtain ⟨pv, hpv⟩ := Option.isSome_iff_exists.mp htot
  intro res
  have hres : res = pv := by
    show (resolveRole roleHierarchy 2 v r).getD (roleBasename r, v) = pv
    rw [hpv]
    rfl
  rw [hres]
  exact ⟨resolveRole_basename hpv, resolveRole_people hpv,
    resolveRole_concepts_mono hpv, resolveRole_creates hpv⟩

/-- The roles loop leaves the people folder untouched. -/
theorem rolesLoop_people (ib : String) :
    ∀ (rs : List String) (fm : PersonFM) (v : Vault) (ch : Bool),
      (rolesLoop ib rs fm v ch).2.1.people = v.people := by
  intro rs
  induction rs with
  | nil => intro fm v ch; rfl
  | cons r rest ih =>
    intro fm v ch
    by_cases hr : r = ""
    · rw [rolesLoop, if_pos hr]
      exact ih fm v ch
    · simp only [rolesLoop, if_neg hr]
      rw [ih]
      exact (resolveRole_loop_spec v r).2.1

/-- The roles loop only writes the roles and credits fields. -/
theorem rolesLoop_fm_shape (ib : String) :
    ∀ (rs : List String) (fm : PersonFM) (v : Vault) (ch : Bool),
      ∃ R C, (rolesLoop ib rs fm v ch).1 =
        { fm with roles := R, credits := C } := by
  intro rs
  induction rs with
  | nil => intro fm v ch; exact ⟨fm.roles, fm.credits, rfl⟩
  | cons r rest ih =>
    intro fm v ch
    by_cases hr : r = ""
    · rw [rolesLoop, if_pos hr]
      exact ih fm v ch
    · simp only [rolesLoop, if_neg hr]
      obtain ⟨R, C, h⟩ := ih _ _ _
      exact ⟨R, C, h⟩

/-- Appending never loses the original list through a conditional add. -/
theorem append_if_extend {α : Type} (b : Bool) (l m : List α) (x : α) :
    (if b = true then l else l ++ [x]) ++ m =
      l ++ ((if b = true then [] else [x]) ++ m) := by
  cases b <;> simp

/-- The roles loop only appends to the roles and credits lists. -/
theorem rolesLoop_append (ib : String) :
    ∀ (rs : List String) (fm : PersonFM) (v : Vault) (ch : Bool),
      ∃ addR addC,
        (rolesLoop ib rs fm v ch).1.roles.getD [] = fm.roles.getD [] ++ addR
        ∧ (rolesLoop ib rs fm v ch).1.credits.getD [] =
            fm.credits.getD [] ++ addC := by
  intro rs
  induction rs with
  | nil => intro fm v ch; exact ⟨[], [], by simp [rolesLoop], by simp [rolesLoop]⟩
  | cons r rest ih =>
    intro fm v ch
    by_cases hr : r = ""
    · rw [rolesLoop, if_pos hr]
      exact ih fm v ch
    · simp only [rolesLoop, if_neg hr]
      obtain ⟨addR, addC, h1, h2⟩ := ih _ _ _
      rw [h1, h2]
      simp only [Option.getD_some]
      exact ⟨_, _, append_if_extend _ _ _ _, append_if_extend _ _ _ _⟩

/-- The roles loop preserves presence of concept documents. -/
theorem rolesLoop_concepts_mono (ib : String) :
    ∀ (rs : List String) (fm : PersonFM) (v : Vault) (ch : Bool) (f : String),
      (v.concepts.lookup f).isSome = true →
      ((rolesLoop ib rs fm v ch).2.1.concepts.lookup f).isSome = true := by
  intro rs
  induction rs with
  | nil => intro fm v ch f hf; exact hf
  | cons r rest ih =>
    intro fm v ch f hf
    by_cases hr : r = ""
    · rw [rolesLoop, if_pos hr]
      exact ih fm v ch f hf
    · simp only [rolesLoop, if_neg hr]
      exact ih _ _ _ f ((resolveRole_loop_spec v r).2.2.1 f hf)

/-- The roles loop preserves distinctness of the credit pairs. -/
theorem rolesLoop_credits_nodup (ib : String) :
    ∀ (rs : List String) (fm : PersonFM) (v : Vault) (ch : Bool),
      (fm.credits.getD []).Nodup →
      ((rolesLoop ib rs fm v ch).1.credits.getD []).Nodup := by
  intro rs
  induction rs with
  | nil => intro fm v ch h; exact h
  | cons r rest ih =>
    intro fm v ch h
    by_cases hr : r = ""
    · rw [rolesLoop, if_pos hr]
      exact ih fm v ch h
    · simp only [rolesLoop, if_neg hr]
      apply ih
      simp only [Option.getD_some]
      split
      · exact h
      · rename_i hmem
        rw [← List.concat_eq_append]
        refine List.Nodup.concat ?_ h
        intro hin
        exact hmem (List.elem_iff.mpr hin)
/-- After the loop, every non-empty role of the list has its link, its
credit pair and its concept document established. -/
theorem rolesLoop_establishes (ib : String) :
    ∀ (rs : List String) (fm : PersonFM) (v : Vault) (ch : Bool),
      ∀ r ∈ rs, ¬ r = "" →
        roleLink r ∈ (rolesLoop ib rs fm v ch).1.roles.getD []
        ∧ (roleLink r, "[[" ++ ib ++ "]]") ∈
            (rolesLoop ib rs fm v ch).1.credits.getD []
        ∧ ((rolesLoop ib rs fm v ch).2.1.concepts.lookup
            (roleFilename r)).isSome = true := by
  intro rs
  induction rs with
  | nil => intro fm v ch r hr; simp at hr
  | cons q rest ih =>
    intro fm v ch r hr hrne
    rcases List.mem_cons.mp hr with rfl | hmem
    · simp only [rolesLoop, if_neg hrne]
      have hspec := resolveRole_loop_spec v r
      rw [hspec.1]
      constructor
      · obtain ⟨addR, _, h1, _⟩ := rolesLoop_append ib rest _ _ _
        rw [h1]
        apply List.mem_append_left
        simp only [Option.getD_some, roleLink]
        split
        · rename_i hhas
          exact List.elem_iff.mp hhas
        · exact List.mem_append_right _ (List.mem_singleton.mpr rfl)
      constructor
      · obtain ⟨_, addC, _, h2⟩ := rolesLoop_append ib rest _ _ _
        rw [h2]
        apply List.mem_append_left
        simp only [Option.getD_some, roleLink]
        split
        · rename_i hhas
          exact List.elem_iff.mp hhas
        · exact List.mem_append_right _ (List.mem_singleton.mpr rfl)
      · exact rolesLoop_concepts_mono ib rest _ _ _ _
          (hspec.2.2.2)
    · by_cases hq : q = ""
      · rw [rolesLoop, if_pos hq]
        exact ih fm v ch r hmem hrne
      · simp only [rolesLoop, if_neg hq]
        exact ih _ _ _ r hmem hrne

/-- When every role of the list is already established in the header and
the store, the loop changes nothing. -/
theorem rolesLoop_stable (ib : String) :
    ∀ (rs : List String) (fm : PersonFM) (v : Vault) (ch : Bool),
      (∀ r ∈ rs, ¬ r = "" →
        roleLink r ∈ fm.roles.getD []
        ∧ (roleLink r, "[[" ++ ib ++ "]]") ∈ fm.credits.getD []
        ∧ (v.concepts.lookup (roleFilename r)).isSome = true) →
      rolesLoop ib rs fm v ch = (fm, v, ch) := by
  intro rs
  induction rs with
  | nil => intro fm v ch _; rfl
  | cons q rest ih =>
    intro fm v ch h
    by_cases hq : q = ""
    · rw [rolesLoop, if_pos hq]
      exact ih fm v ch (fun r hr => h r (List.mem_cons_of_mem q hr))
    · obtain ⟨hrole, hcred, hconc⟩ := h q (List.mem_cons_self q rest) hq
      simp only [roleLink] at hrole hcred
      obtain ⟨lR, hlR⟩ : ∃ l, fm.roles = some l := by
        cases hfr : fm.roles with
        | none => rw [hfr] at hrole; simp at hrole
        | some l => exact ⟨l, rfl⟩
      obtain ⟨lC, hlC⟩ : ∃ l, fm.credits = some l := by
        cases hfc : fm.credits with
        | none => rw [hfc] at hcred; simp at hcred
        | some l => exact ⟨l, rfl⟩
      have hres : resolveRole roleHierarchy 2 v q =
          some (roleBasename q, v) := resolveRole_found 1 hconc
      simp only [rolesLoop, if_neg hq, hres, Option.getD_some]
      have hhr : (fm.roles.getD []).contains
          ("[[" ++ roleBasename q ++ "]]") = true :=
        List.elem_iff.mpr hrole
      have hhc : (fm.credits.getD []).contains
          (("[[" ++ roleBasename q ++ "]]"), ("[[" ++ ib ++ "]]")) = true :=
        List.elem_iff.mpr hcred
      rw [hhr, hhc]
      have hfm : ({ fm with
            roles := some (fm.roles.getD []),
            credits := some (fm.credits.getD []) } : PersonFM) = fm := by
        rw [hlR, hlC]
        simp only [Option.getD_some]
        rw [← hlR, ← hlC]
      simp only [if_true, Bool.not_true, Bool.or_false, hfm]
      exact ih fm v ch (fun r hr => h r (List.mem_cons_of_mem q hr))
/-- Frame of the scalar merge: list fields, image and user fields are
untouched; on an existing document the creation date, aliases and tags
are untouched; non-falsy scalars keep their values; present birth and
death dates keep their values; and an entity type other than empty or
ComicCreator keeps its value. -/
theorem mergeCore_frame (fm : PersonFM) (isNew : Bool) (det : PersonDetails)
    (now : String) :
    (mergeCore fm isNew det now).1.extra = fm.extra
    ∧ (mergeCore fm isNew det now).1.roles = fm.roles
    ∧ (mergeCore fm isNew det now).1.credits = fm.credits
    ∧ (mergeCore fm isNew det now).1.image = fm.image
    ∧ (isNew = false → (mergeCore fm isNew det now).1.creationDate = fm.creationDate
        ∧ (mergeCore fm isNew det now).1.aliases = fm.aliases
        ∧ (mergeCore fm isNew det now).1.tags = fm.tags)
    ∧ (falsyStr fm.name = false → (mergeCore fm isNew det now).1.name = fm.name)
    ∧ (falsyNat fm.comicVineId = false →
        (mergeCore fm isNew det now).1.comicVineId = fm.comicVineId)
    ∧ (falsyStr fm.comicVineUrl = false →
        (mergeCore fm isNew det now).1.comicVineUrl = fm.comicVineUrl)
    ∧ (fm.birthDate.isSome = true →
        (mergeCore fm isNew det now).1.birthDate = fm.birthDate)
    ∧ (fm.deathDate.isSome = true →
        (mergeCore fm isNew det now).1.deathDate = fm.deathDate)
    ∧ (∀ e, fm.entityType = some e → ¬ e = "" → ¬ e = "ComicCreator" →
        (mergeCore fm isNew det now).1.entityType = some e) := by
  refine ⟨rfl, rfl, rfl, rfl, ?_, ?_, ?_, ?_, ?_, ?_, ?_⟩
  · intro h
    simp [mergeCore, h]
  · intro h
    simp [mergeCore, h]
  · intro h
    simp [mergeCore, h]
  · intro h
    simp [mergeCore, h]
  · intro h
    simp [mergeCore, Option.isNone_iff_eq_none, Option.isSome_iff_ne_none.mp h]
  · intro h
    simp [mergeCore, Option.isNone_iff_eq_none, Option.isSome_iff_ne_none.mp h]
  · intro e he h1 h2
    have h3 : falsyStr (some e) = false := by simp [falsyStr, h1]
    simp [mergeCore, he, h2, h3]

/-- The merge on a fresh document fills every owned field. -/
theorem mergeCore_fresh (det : PersonDetails) (now : String) :
    mergeCore PersonFM.empty true det now =
      (⟨some "Person", some det.name, some det.id, some det.siteUrl,
        some [], some ["person", "comic-creator"], some now, some now,
        parseCreatorDate det.birth, parseCreatorDate det.death,
        none, none, none, []⟩, true) := by
  unfold mergeCore PersonFM.empty
  simp only [falsyStr, falsyNat]
  cases hb : parseCreatorDate det.birth <;> cases hd : parseCreatorDate det.death <;>
    simp [hb, hd]

/-- The merge on a fully-populated existing document only refreshes the
modification date and reports no change. -/
theorem mergeCore_stable {fm : PersonFM} (det : PersonDetails) (now : String)
    (hent : fm.entityType = some "Person")
    (hname : falsyStr fm.name = false)
    (hid : falsyNat fm.comicVineId = false)
    (hurl : falsyStr fm.comicVineUrl = false)
    (hbirth : (parseCreatorDate det.birth).isSome = true → fm.birthDate.isSome = true)
    (hdeath : (parseCreatorDate det.death).isSome = true → fm.deathDate.isSome = true) :
    mergeCore fm false det now =
      ({ fm with modificationDate := some now }, false) := by
  have h1 : falsyStr fm.entityType = false := by rw [hent]; simp [falsyStr]
  have h2 : (fm.entityType == some "ComicCreator") = false := by
    rw [hent]
    decide
  have hb : ((parseCreatorDate det.birth).isSome && fm.birthDate.isNone) = false := by
    cases hx : (parseCreatorDate det.birth).isSome with
    | false => simp
    | true =>
      obtain ⟨b, hbv⟩ := Option.isSome_iff_exists.mp (hbirth hx)
      simp [hbv]
  have hd : ((parseCreatorDate det.death).isSome && fm.deathDate.isNone) = false := by
    cases hx : (parseCreatorDate det.death).isSome with
    | false => simp
    | true =>
      obtain ⟨b, hbv⟩ := Option.isSome_iff_exists.mp (hdeath hx)
      simp [hbv]
  simp [mergeCore, h1, h2, hname, hid, hurl, hb, hd]

/-- `ensureListFields` only initializes the three list fields. -/
theorem ensureListFields_spec (fm : PersonFM) :
    (ensureListFields fm).entityType = fm.entityType
    ∧ (ensureListFields fm).name = fm.name
    ∧ (ensureListFields fm).comicVineId = fm.comicVineId
    ∧ (ensureListFields fm).comicVineUrl = fm.comicVineUrl
    ∧ (ensureListFields fm).aliases = fm.aliases
    ∧ (ensureListFields fm).creationDate = fm.creationDate
    ∧ (ensureListFields fm).modificationDate = fm.modificationDate
    ∧ (ensureListFields fm).birthDate = fm.birthDate
    ∧ (ensureListFields fm).deathDate = fm.deathDate
    ∧ (ensureListFields fm).image = fm.image
    ∧ (ensureListFields fm).extra = fm.extra
    ∧ (ensureListFields fm).roles = some (fm.roles.getD [])
    ∧ (ensureListFields fm).credits = some (fm.credits.getD [])
    ∧ (ensureListFields fm).tags = some (fm.tags.getD []) :=
  ⟨rfl, rfl, rfl, rfl, rfl, rfl, rfl, rfl, rfl, rfl, rfl, rfl, rfl, rfl⟩

/-- `ensureListFields` is the identity when the list fields exist. -/
theorem ensureListFields_eq_self {fm : PersonFM}
    (hr : fm.roles.isSome = true) (hc : fm.credits.isSome = true)
    (ht : fm.tags.isSome = true) : ensureListFields fm = fm := by
  obtain ⟨r, hr⟩ := Option.isSome_iff_exists.mp hr
  obtain ⟨c, hc⟩ := Option.isSome_iff_exists.mp hc
  obtain ⟨t, ht⟩ := Option.isSome_iff_exists.mp ht
  unfold ensureListFields
  rw [hr, hc, ht]
  simp only [Option.getD_some]
  rw [← hr, ← hc, ← ht]

/-- The tag step only appends to the tags list and touches nothing
else. -/
theorem addTagsStep_spec (fm : PersonFM) (ch : Bool) :
    ((addTagsStep fm ch).1.entityType = fm.entityType
    ∧ (addTagsStep fm ch).1.name = fm.name
    ∧ (addTagsStep fm ch).1.comicVineId = fm.comicVineId
    ∧ (addTagsStep fm ch).1.comicVineUrl = fm.comicVineUrl
    ∧ (addTagsStep fm ch).1.aliases = fm.aliases
    ∧ (addTagsStep fm ch).1.creationDate = fm.creationDate
    ∧ (addTagsStep fm ch).1.modificationDate = fm.modificationDate
    ∧ (addTagsStep fm ch).1.birthDate = fm.birthDate
    ∧ (addTagsStep fm ch).1.deathDate = fm.deathDate
    ∧ (addTagsStep fm ch).1.image = fm.image
    ∧ (addTagsStep fm ch).1.extra = fm.extra
    ∧ (addTagsStep fm ch).1.roles = fm.roles
    ∧ (addTagsStep fm ch).1.credits = fm.credits)
    ∧ ∃ addT, (addTagsStep fm ch).1.tags.getD [] = fm.tags.getD [] ++ addT := by
  constructor
  · simp [addTagsStep]
  · simp only [addTagsStep]
    split
    · split
      · exact ⟨[], by simp⟩
      · exact ⟨["comic-creator"], by simp⟩
    · split
      · exact ⟨["person"], by simp⟩
      · exact ⟨["person", "comic-creator"], by simp⟩

/-- The tag step changes nothing when both tags are present. -/
theorem addTagsStep_stable {fm : PersonFM} (ch : Bool)
    (hsome : fm.tags.isSome = true)
    (hp : (fm.tags.getD []).contains "person" = true)
    (hc : (fm.tags.getD []).contains "comic-creator" = true) :
    addTagsStep fm ch = (fm, ch) := by
  obtain ⟨t, ht⟩ := Option.isSome_iff_exists.mp hsome
  simp only [addTagsStep, hp, if_true, hc]
  rw [ht]
  simp only [Option.getD_some]
  rw [← ht]

/-- Stripping leading whitespace is idempotent. -/
theorem jsTrimStart_idem (s : String) :
    jsTrimStart (jsTrimStart s) = jsTrimStart s := by
  unfold jsTrimStart
  exact congrArg (fun l => (⟨l⟩ : String))
    (List.dropWhile_idempotent jsWs s.data)

/-- A leading newline disappears when stripping leading whitespace. -/
theorem jsTrimStart_newline (s : String) :
    jsTrimStart ("\n" ++ s) = jsTrimStart s := by
  unfold jsTrimStart
  have hdata : ("\n" ++ s).data = '\n' :: s.data := by
    rw [String.data_append]
    rfl
  apply congrArg (fun l => (⟨l⟩ : String))
  rw [hdata, List.dropWhile_cons_of_pos]
  decide

/-- Sorting the roles list preserves its members. -/
theorem mem_sortRolesList {x : String} {l : List String} :
    x ∈ sortRolesList l ↔ x ∈ l :=
  (List.perm_insertionSort (fun a b => a ≤ b) l).mem_iff
/-- C5 (amended): when the upsert engine updates an existing Person
document, the user-authored body is preserved up to stripping the
whitespace at its start (the text from its first non-whitespace
character on is unchanged); every scalar header field already present
with a truthy value keeps its old value, except the entity type (a
legacy ComicCreator value is migrated to Person) and the modification
timestamp (refreshed on every change); unrecognized user fields are
preserved; and the roles, credits and tags lists are only extended. -/
theorem upsert_preserves_existing_person
    (fetch : Nat → Option PersonDetails) (now ib : String) (v : Vault)
    (u : UCreator) (p : String) (d : PersonDoc) (det : PersonDetails)
    (hfind : findPersonNote v u.id u.name = some p)
    (hlook : v.people.lookup p = some d)
    (hfetch : fetch u.id = some det) :
    ∃ d2, (processCreator fetch now ib v u).people.lookup p = some d2
      ∧ (d2.tail = d.tail ∨ d2.tail = "\n" ++ jsTrimStart d.tail)
      ∧ jsTrimStart d2.tail = jsTrimStart d.tail
      ∧ (falsyStr d.fm.name = false → d2.fm.name = d.fm.name)
      ∧ (falsyNat d.fm.comicVineId = false → d2.fm.comicVineId = d.fm.comicVineId)
      ∧ (falsyStr d.fm.comicVineUrl = false → d2.fm.comicVineUrl = d.fm.comicVineUrl)
      ∧ (d.fm.birthDate.isSome = true → d2.fm.birthDate = d.fm.birthDate)
      ∧ (d.fm.deathDate.isSome = true → d2.fm.deathDate = d.fm.deathDate)
      ∧ d2.fm.creationDate = d.fm.creationDate
      ∧ d2.fm.aliases = d.fm.aliases
      ∧ d2.fm.image = d.fm.image
      ∧ d2.fm.extra = d.fm.extra
      ∧ (∀ e, d.fm.entityType = some e → ¬ e = "" → ¬ e = "ComicCreator" →
          d2.fm.entityType = some e)
      ∧ (∀ x, x ∈ d.fm.roles.getD [] → x ∈ d2.fm.roles.getD [])
      ∧ (∃ addC, d2.fm.credits.getD [] = d.fm.credits.getD [] ++ addC)
      ∧ (∃ addT, d2.fm.tags.getD [] = d.fm.tags.getD [] ++ addT) := by
  have hmf := mergeCore_frame d.fm false det now
  simp only [processCreator, hfind, hlook, hfetch, Option.isNone_some]
  set M := mergeCore d.fm false det now with hM
  set F2 := ensureListFields M.1 with hF2
  set T := addTagsStep F2 M.2 with hT
  set DD := dedupKeepFirst u.roles with hDD
  set R := rolesLoop ib DD T.1 v T.2 with hR
  have hpeople : R.2.1.people = v.people := by
    rw [hR]
    exact rolesLoop_people ib DD T.1 v T.2
  by_cases hch : R.2.2 = true
  · rw [if_pos hch]
    have hlook2 : R.2.1.people.lookup p = some d := by rw [hpeople]; exact hlook
    refine ⟨buildFrontmatter
      { R.1 with
        roles := some (sortRolesList (R.1.roles.getD [])),
        modificationDate := some now } (parsedBody d), ?_, ?_⟩
    · exact lookup_map_replace _ (by rw [hlook2]; rfl)
    have hshape := rolesLoop_fm_shape ib DD T.1 v T.2
    rw [← hR] at hshape
    obtain ⟨RR, CC, hRfm⟩ := hshape
    have hts := addTagsStep_spec F2 M.2
    rw [← hT] at hts
    have htail1 : (buildFrontmatter
        { R.1 with
          roles := some (sortRolesList (R.1.roles.getD [])),
          modificationDate := some now } (parsedBody d)).tail =
        "\n" ++ jsTrimStart d.tail := by
      show "\n" ++ jsTrimStart (jsTrimStart d.tail) = "\n" ++ jsTrimStart d.tail
      rw [jsTrimStart_idem]
    refine ⟨Or.inr htail1, ?_, ?_, ?_, ?_, ?_, ?_, ?_, ?_, ?_, ?_, ?_, ?_, ?_, ?_⟩
    · rw [htail1, jsTrimStart_newline, jsTrimStart_idem]
    · intro h
      show R.1.name = d.fm.name
      rw [hRfm]
      show F2.name = d.fm.name
      rw [hF2]
      show M.1.name = d.fm.name
      exact hmf.2.2.2.2.2.1 h
    · intro h
      show R.1.comicVineId = d.fm.comicVineId
      rw [hRfm]
      show F2.comicVineId = d.fm.comicVineId
      rw [hF2]
      exact hmf.2.2.2.2.2.2.1 h
    · intro h
      show R.1.comicVineUrl = d.fm.comicVineUrl
      rw [hRfm]
      show F2.comicVineUrl = d.fm.comicVineUrl
      rw [hF2]
      exact hmf.2.2.2.2.2.2.2.1 h
    · intro h
      show R.1.birthDate = d.fm.birthDate
      rw [hRfm]
      show F2.birthDate = d.fm.birthDate
      rw [hF2]
      exact hmf.2.2.2.2.2.2.2.2.1 h
    · intro h
      show R.1.deathDate = d.fm.deathDate
      rw [hRfm]
      show F2.deathDate = d.fm.deathDate
      rw [hF2]
      exact hmf.2.2.2.2.2.2.2.2.2.1 h
    · show R.1.creationDate = d.fm.creationDate
      rw [hRfm]
      show F2.creationDate = d.fm.creationDate
      rw [hF2]
      exact (hmf.2.2.2.2.1 rfl).1
    · show R.1.aliases = d.fm.aliases
      rw [hRfm]
      show F2.aliases = d.fm.aliases
      rw [hF2]
      exact (hmf.2.2.2.2.1 rfl).2.1
    · show R.1.image = d.fm.image
      rw [hRfm]
      show F2.image = d.fm.image
      rw [hF2]
      exact hmf.2.2.2.1
    · show R.1.extra = d.fm.extra
      rw [hRfm]
      show F2.extra = d.fm.extra
      rw [hF2]
      exact hmf.1
    · intro e he h1 h2
      show R.1.entityType = some e
      rw [hRfm]
      show F2.entityType = some e
      rw [hF2]
      exact hmf.2.2.2.2.2.2.2.2.2.2 e he h1 h2
    · intro x hx
      show x ∈ (sortRolesList (R.1.roles.getD []))
      rw [mem_sortRolesList]
      obtain ⟨addR, addC, h1, _⟩ := rolesLoop_append ib DD T.1 v T.2
      rw [← hR] at h1
      rw [h1]
      apply List.mem_append_left
      have hTroles : T.1.roles = some (d.fm.roles.getD []) := by
        rw [hts.1.2.2.2.2.2.2.2.2.2.2.2.1]
        rw [hF2]
        show some (M.1.roles.getD []) = some (d.fm.roles.getD [])
        rw [hmf.2.1]
      rw [hTroles]
      simpa using hx
    · obtain ⟨addR, addC, _, h2⟩ := rolesLoop_append ib DD T.1 v T.2
      rw [← hR] at h2
      have hTcred : T.1.credits = some (d.fm.credits.getD []) := by
        rw [hts.1.2.2.2.2.2.2.2.2.2.2.2.2]
        rw [hF2]
        show some (M.1.credits.getD []) = some (d.fm.credits.getD [])
        rw [hmf.2.2.1]
      refine ⟨addC, ?_⟩
      show R.1.credits.getD [] = d.fm.credits.getD [] ++ addC
      rw [h2, hTcred]
      rfl
    · obtain ⟨addT, haddT⟩ := hts.2
      refine ⟨addT, ?_⟩
      show R.1.tags.getD [] = d.fm.tags.getD [] ++ addT
      have hRtags : R.1.tags = T.1.tags := by rw [hRfm]
      rw [hRtags, haddT, hF2]
      show (ensureListFields M.1).tags.getD [] ++ addT = d.fm.tags.getD [] ++ addT
      have : (ensureListFields M.1).tags = some (M.1.tags.getD []) := rfl
      rw [this]
      simp only [Option.getD_some]
      rw [(hmf.2.2.2.2.1 rfl).2.2]
  · rw [if_neg hch]
    refine ⟨d, by rw [hpeople]; exact hlook, Or.inl rfl, rfl,
      fun _ => rfl, fun _ => rfl, fun _ => rfl, fun _ => rfl, fun _ => rfl,
      rfl, rfl, rfl, rfl, fun e he _ _ => he, fun x hx => hx,
      ⟨[], by simp⟩, ⟨[], by simp⟩⟩
/-- The concrete existing person document of the C5 counterexample:
a legacy ComicCreator header with all identity fields present, and a
user body that begins with a blank line and indentation. -/
def c5fm : PersonFM :=
  { entityType := some "ComicCreator", name := some "Jane Roe",
    comicVineId := some 7, comicVineUrl := some "u", aliases := some [],
    tags := some ["person", "comic-creator"], creationDate := some "C0",
    modificationDate := some "M0", birthDate := none, deathDate := none,
    image := none, roles := some [], credits := some [],
    extra := [("favoriteComic", "X")] }

/-- The stored document: note the tail bytes after the closing header
delimiter start with an extra blank line and two spaces. -/
def c5doc : PersonDoc := ⟨c5fm, "\n\n  My notes."⟩

/-- A store holding only that document. -/
def c5vault : Vault := ⟨[("Jane Roe.md", c5doc)], []⟩

/-- The fetch result for the credited person. -/
def c5fetch : Nat → Option PersonDetails :=
  fun i => if i = 7 then some ⟨7, "Jane Roe", "u", none, none⟩ else none

/-- The credited person. -/
def c5u : UCreator := ⟨7, "Jane Roe", ["writer"]⟩

/-- The store after the update. -/
def c5out : Vault := processCreator c5fetch "M1" "Issue 001" c5vault c5u

/-- C5 counterexample: updating the existing Person document is not a
byte-for-byte preservation of the body, and present scalar fields do
not all keep their old values. The rewritten document drops the leading
blank line and indentation of the body, overwrites the present
entityType ComicCreator with Person, and overwrites the present
modification date. -/
theorem upsert_not_verbatim_counterexample :
    (c5out.people.lookup "Jane Roe.md").map (fun d => d.tail) =
      some "\nMy notes."
    ∧ c5doc.tail = "\n\n  My notes."
    ∧ (c5out.people.lookup "Jane Roe.md").map (fun d => d.fm.entityType) =
      some (some "Person")
    ∧ c5doc.fm.entityType = some "ComicCreator"
    ∧ (c5out.people.lookup "Jane Roe.md").map (fun d => d.fm.modificationDate) =
      some (some "M1")
    ∧ c5doc.fm.modificationDate = some "M0" := by
  refine ⟨by decide, rfl, by decide, rfl, by decide, rfl⟩

/-- Witness for C5: the amended preservation theorem applied to the
concrete store above. -/
theorem upsert_preserves_existing_person_witness :
    ∃ d2, (processCreator c5fetch "M1" "Issue 001" c5vault c5u).people.lookup
        "Jane Roe.md" = some d2
      ∧ (d2.tail = c5doc.tail ∨ d2.tail = "\n" ++ jsTrimStart c5doc.tail)
      ∧ jsTrimStart d2.tail = jsTrimStart c5doc.tail
      ∧ (falsyStr c5doc.fm.name = false → d2.fm.name = c5doc.fm.name)
      ∧ (falsyNat c5doc.fm.comicVineId = false →
          d2.fm.comicVineId = c5doc.fm.comicVineId)
      ∧ (falsyStr c5doc.fm.comicVineUrl = false →
          d2.fm.comicVineUrl = c5doc.fm.comicVineUrl)
      ∧ (c5doc.fm.birthDate.isSome = true → d2.fm.birthDate = c5doc.fm.birthDate)
      ∧ (c5doc.fm.deathDate.isSome = true → d2.fm.deathDate = c5doc.fm.deathDate)
      ∧ d2.fm.creationDate = c5doc.fm.creationDate
      ∧ d2.fm.aliases = c5doc.fm.aliases
      ∧ d2.fm.image = c5doc.fm.image
      ∧ d2.fm.extra = c5doc.fm.extra
      ∧ (∀ e, c5doc.fm.entityType = some e → ¬ e = "" → ¬ e = "ComicCreator" →
          d2.fm.entityType = some e)
      ∧ (∀ x, x ∈ c5doc.fm.roles.getD [] → x ∈ d2.fm.roles.getD [])
      ∧ (∃ addC, d2.fm.credits.getD [] = c5doc.fm.credits.getD [] ++ addC)
      ∧ (∃ addT, d2.fm.tags.getD [] = c5doc.fm.tags.getD [] ++ addT) :=
  upsert_preserves_existing_person c5fetch "M1" "Issue 001" c5vault c5u
    "Jane Roe.md" c5doc ⟨7, "Jane Roe", "u", none, none⟩
    (by decide) (by decide) (by decide)
/-! ## Double-import idempotence (claim C3) -/

/-- The sanitized-name file path of a creator. -/
def upath (u : UCreator) : String := sanitizeForFileName u.name ++ ".md"

/-- The person document created for a newly encountered creator. Its
header and body depend only on the creator, the fetched details, the
issue basename and the timestamp, not on the store. -/
def freshPersonDoc (ib now : String) (u : UCreator) (det : PersonDetails) :
    PersonDoc :=
  let m := mergeCore PersonFM.empty true det now
  let t := addTagsStep (ensureListFields m.1) m.2
  let r := rolesLoop ib (dedupKeepFirst u.roles) t.1 Vault.empty t.2
  buildFrontmatter
    { r.1 with
      roles := some (sortRolesList (r.1.roles.getD [])),
      modificationDate := some now }
    ("# " ++ u.name ++ "\n\n")

/-- A true change flag stays true through the roles loop. -/
theorem rolesLoop_ch_true (ib : String) :
    ∀ (rs : List String) (fm : PersonFM) (v : Vault),
      (rolesLoop ib rs fm v true).2.2 = true := by
  intro rs
  induction rs with
  | nil => intro fm v; rfl
  | cons r rest ih =>
    intro fm v
    by_cases hr : r = ""
    · rw [rolesLoop, if_pos hr]
      exact ih fm v
    · simp only [rolesLoop, if_neg hr, Bool.true_or]
      exact ih _ _

/-- The header and change flag computed by the roles loop do not depend
on the store it threads. -/
theorem rolesLoop_state_indep (ib : String) :
    ∀ (rs : List String) (fm : PersonFM) (v w : Vault) (ch : Bool),
      (rolesLoop ib rs fm v ch).1 = (rolesLoop ib rs fm w ch).1
      ∧ (rolesLoop ib rs fm v ch).2.2 = (rolesLoop ib rs fm w ch).2.2 := by
  intro rs
  induction rs with
  | nil => intro fm v w ch; exact ⟨rfl, rfl⟩
  | cons r rest ih =>
    intro fm v w ch
    by_cases hr : r = ""
    · rw [rolesLoop, if_pos hr, rolesLoop, if_pos hr]
      exact ih fm v w ch
    · simp only [rolesLoop, if_neg hr]
      rw [(resolveRole_loop_spec v r).1, (resolveRole_loop_spec w r).1]
      exact ih _ _ _ _

/-- The roles loop preserves existence of the roles and credits lists. -/
theorem rolesLoop_isSome (ib : String) :
    ∀ (rs : List String) (fm : PersonFM) (v : Vault) (ch : Bool),
      fm.roles.isSome = true → fm.credits.isSome = true →
      (rolesLoop ib rs fm v ch).1.roles.isSome = true
      ∧ (rolesLoop ib rs fm v ch).1.credits.isSome = true := by
  intro rs
  induction rs with
  | nil => intro fm v ch h1 h2; exact ⟨h1, h2⟩
  | cons r rest ih =>
    intro fm v ch h1 h2
    by_cases hr : r = ""
    · rw [rolesLoop, if_pos hr]
      exact ih fm v ch h1 h2
    · simp only [rolesLoop, if_neg hr]
      exact ih _ _ _ (by simp) (by simp)

/-- Processing one creator never removes a concept document. -/
theorem processCreator_concepts_mono (fetch : Nat → Option PersonDetails)
    (now ib : String) (v : Vault) (u : UCreator) (f : String)
    (hf : (v.concepts.lookup f).isSome = true) :
    ((processCreator fetch now ib v u).concepts.lookup f).isSome = true := by
  unfold processCreator
  cases hfe : fetch u.id with
  | none => exact hf
  | some det =>
    simp only []
    split
    · split
      · exact rolesLoop_concepts_mono ib _ _ _ _ f hf
      · exact rolesLoop_concepts_mono ib _ _ _ _ f hf
    · exact rolesLoop_concepts_mono ib _ _ _ _ f hf

/-- A key absent from every entry is not found. -/
theorem lookup_eq_none_of_not_mem {β : Type} {l : List (String × β)}
    {k : String} (h : ∀ e ∈ l, ¬ e.1 = k) : l.lookup k = none := by
  induction l with
  | nil => rfl
  | cons e t ih =>
    have hk : (k == e.1) = false :=
      beq_eq_false_iff_ne.mpr (fun hc => h e (List.mem_cons_self e t) hc.symm)
    simp only [List.lookup, hk, cond_false]
    exact ih (fun x hx => h x (List.mem_cons_of_mem e hx))

/-- Every deduplicated creator carries the id and name of some credit. -/
theorem mem_uniqueCreators_aux :
    ∀ (credits : List Credit) (acc : List UCreator),
      ∀ u ∈ credits.foldl addCreator acc,
        (∃ a ∈ acc, u.id = a.id ∧ u.name = a.name)
        ∨ (∃ c ∈ credits, u.id = c.id ∧ u.name = c.name) := by
  intro credits
  induction credits with
  | nil =>
    intro acc u hu
    exact Or.inl ⟨u, hu, rfl, rfl⟩
  | cons c rest ih =>
    intro acc u hu
    rw [List.foldl_cons] at hu
    rcases ih (addCreator acc c) u hu with ⟨a, ha, h1, h2⟩ | ⟨c2, hc2, h1, h2⟩
    · unfold addCreator at ha
      split at ha
      · rcases List.mem_map.mp ha with ⟨a0, ha0, hfa⟩
        refine Or.inl ⟨a0, ha0, ?_, ?_⟩
        · rw [h1, ← hfa]
          split
          · rfl
          · rfl
        · rw [h2, ← hfa]
          split
          · rfl
          · rfl
      · rcases List.mem_append.mp ha with ha2 | ha2
        · exact Or.inl ⟨a, ha2, h1, h2⟩
        · obtain rfl := List.mem_singleton.mp ha2
          exact Or.inr ⟨c, List.mem_cons_self c rest, h1, h2⟩
    · exact Or.inr ⟨c2, List.mem_cons_of_mem c hc2, h1, h2⟩

/-- Every deduplicated creator carries the id and name of some credit. -/
theorem mem_uniqueCreators {credits : List Credit} {u : UCreator}
    (hu : u ∈ uniqueCreators credits) :
    ∃ c ∈ credits, u.id = c.id ∧ u.name = c.name := by
  rcases mem_uniqueCreators_aux credits [] u hu with ⟨a, ha, _⟩ | h
  · simp at ha
  · exact h

/-- One deduplication step preserves the id list when the id is known,
and appends it otherwise. -/
theorem addCreator_ids (acc : List UCreator) (c : Credit) :
    (addCreator acc c).map (fun u => u.id) =
      if acc.any (fun u => u.id == c.id) then acc.map (fun u => u.id)
      else acc.map (fun u => u.id) ++ [c.id] := by
  unfold addCreator
  split
  · rw [List.map_map]
    apply List.map_congr_left
    intro a _
    simp only [Function.comp]
    split
    · rfl
    · rfl
  · simp

/-- The deduplicated creators have pairwise distinct ids. -/
theorem uniqueCreators_ids_nodup_aux :
    ∀ (credits : List Credit) (acc : List UCreator),
      (acc.map (fun u => u.id)).Nodup →
      ((credits.foldl addCreator acc).map (fun u => u.id)).Nodup := by
  intro credits
  induction credits with
  | nil => intro acc h; exact h
  | cons c rest ih =>
    intro acc h
    rw [List.foldl_cons]
    apply ih
    rw [addCreator_ids]
    split
    · exact h
    · rename_i hany
      rw [← List.concat_eq_append]
      refine List.Nodup.concat ?_ h
      intro hin
      apply hany
      rw [List.any_eq_true]
      rcases List.mem_map.mp hin with ⟨a, ha, heq⟩
      exact ⟨a, ha, beq_iff_eq.mpr heq⟩

/-- The deduplicated creators have pairwise distinct ids. -/
theorem uniqueCreators_ids_nodup (credits : List Credit) :
    ((uniqueCreators credits).map (fun u => u.id)).Nodup :=
  uniqueCreators_ids_nodup_aux credits [] List.nodup_nil
/-- The fully-populated header a fresh creator document carries when it
enters the roles loop: the scalar merge filled every identity field and
the list initializations created empty roles and credits. -/
def freshBaseFM (det : PersonDetails) (now : String) : PersonFM :=
  ⟨some "Person", some det.name, some det.id, some det.siteUrl,
   some [], some ["person", "comic-creator"], some now, some now,
   parseCreatorDate det.birth, parseCreatorDate det.death,
   none, some [], some [], []⟩

/-- The fresh person document unfolded to the roles-loop output over the
fully-populated base header. -/
theorem freshPersonDoc_eq (ib now : String) (u : UCreator)
    (det : PersonDetails) :
    freshPersonDoc ib now u det =
      buildFrontmatter
        { (rolesLoop ib (dedupKeepFirst u.roles) (freshBaseFM det now)
            Vault.empty true).1 with
          roles := some (sortRolesList
            ((rolesLoop ib (dedupKeepFirst u.roles) (freshBaseFM det now)
              Vault.empty true).1.roles.getD [])),
          modificationDate := some now }
        ("# " ++ u.name ++ "\n\n") := by
  have hEF : ensureListFields (mergeCore PersonFM.empty true det now).1 =
      freshBaseFM det now := by
    rw [mergeCore_fresh]
    rfl
  have hM2 : (mergeCore PersonFM.empty true det now).2 = true := by
    rw [mergeCore_fresh]
  have hT : addTagsStep (freshBaseFM det now) true =
      (freshBaseFM det now, true) := addTagsStep_stable true rfl rfl rfl
  simp only [freshPersonDoc, hEF, hM2, hT]

/-- The scalar fields of a fresh person document record the fetched
details. -/
theorem freshPersonDoc_fields (ib now : String) (u : UCreator)
    (det : PersonDetails) :
    (freshPersonDoc ib now u det).fm.entityType = some "Person"
    ∧ (freshPersonDoc ib now u det).fm.name = some det.name
    ∧ (freshPersonDoc ib now u det).fm.comicVineId = some det.id
    ∧ (freshPersonDoc ib now u det).fm.comicVineUrl = some det.siteUrl
    ∧ (freshPersonDoc ib now u det).fm.birthDate = parseCreatorDate det.birth
    ∧ (freshPersonDoc ib now u det).fm.deathDate = parseCreatorDate det.death
    ∧ (freshPersonDoc ib now u det).fm.tags =
        some ["person", "comic-creator"] := by
  rw [freshPersonDoc_eq]
  obtain ⟨RR, CC, hsh⟩ := rolesLoop_fm_shape ib (dedupKeepFirst u.roles)
    (freshBaseFM det now) Vault.empty true
  refine ⟨?_, ?_, ?_, ?_, ?_, ?_, ?_⟩
  · show (rolesLoop ib (dedupKeepFirst u.roles) (freshBaseFM det now)
      Vault.empty true).1.entityType = some "Person"
    rw [hsh]
    rfl
  · show (rolesLoop ib (dedupKeepFirst u.roles) (freshBaseFM det now)
      Vault.empty true).1.name = some det.name
    rw [hsh]
    rfl
  · show (rolesLoop ib (dedupKeepFirst u.roles) (freshBaseFM det now)
      Vault.empty true).1.comicVineId = some det.id
    rw [hsh]
    rfl
  · show (rolesLoop ib (dedupKeepFirst u.roles) (freshBaseFM det now)
      Vault.empty true).1.comicVineUrl = some det.siteUrl
    rw [hsh]
    rfl
  · show (rolesLoop ib (dedupKeepFirst u.roles) (freshBaseFM det now)
      Vault.empty true).1.birthDate = parseCreatorDate det.birth
    rw [hsh]
    rfl
  · show (rolesLoop ib (dedupKeepFirst u.roles) (freshBaseFM det now)
      Vault.empty true).1.deathDate = parseCreatorDate det.death
    rw [hsh]
    rfl
  · show (rolesLoop ib (dedupKeepFirst u.roles) (freshBaseFM det now)
      Vault.empty true).1.tags = some ["person", "comic-creator"]
    rw [hsh]
    rfl

/-- The list fields of a fresh person document are the sorted roles and
the credits produced by the roles loop. -/
theorem freshPersonDoc_lists (ib now : String) (u : UCreator)
    (det : PersonDetails) :
    (freshPersonDoc ib now u det).fm.roles =
      some (sortRolesList ((rolesLoop ib (dedupKeepFirst u.roles)
        (freshBaseFM det now) Vault.empty true).1.roles.getD []))
    ∧ (freshPersonDoc ib now u det).fm.credits =
      (rolesLoop ib (dedupKeepFirst u.roles) (freshBaseFM det now)
        Vault.empty true).1.credits := by
  rw [freshPersonDoc_eq]
  exact ⟨rfl, rfl⟩

/-- A fresh person document has no duplicate credit pair. -/
theorem freshPersonDoc_credits_nodup (ib now : String) (u : UCreator)
    (det : PersonDetails) :
    ((freshPersonDoc ib now u det).fm.credits.getD []).Nodup := by
  rw [(freshPersonDoc_lists ib now u det).2]
  exact rolesLoop_credits_nodup ib (dedupKeepFirst u.roles)
    (freshBaseFM det now) Vault.empty true List.nodup_nil

/-- A header the upsert engine will not touch again: the entity type is
Person, every identity scalar is truthy, the fetched birth and death
dates are already recorded, the list fields exist, both tags are
present, and every role of the creator already has its link and its
credit pair. -/
def StableHeader (ib : String) (u : UCreator) (det : PersonDetails)
    (fm : PersonFM) : Prop :=
  fm.entityType = some "Person"
  ∧ falsyStr fm.name = false
  ∧ falsyNat fm.comicVineId = false
  ∧ falsyStr fm.comicVineUrl = false
  ∧ ((parseCreatorDate det.birth).isSome = true → fm.birthDate.isSome = true)
  ∧ ((parseCreatorDate det.death).isSome = true → fm.deathDate.isSome = true)
  ∧ fm.roles.isSome = true
  ∧ fm.credits.isSome = true
  ∧ fm.tags.isSome = true
  ∧ (fm.tags.getD []).contains "person" = true
  ∧ (fm.tags.getD []).contains "comic-creator" = true
  ∧ (∀ r ∈ dedupKeepFirst u.roles, ¬ r = "" →
      roleLink r ∈ fm.roles.getD []
      ∧ (roleLink r, "[[" ++ ib ++ "]]") ∈ fm.credits.getD [])

/-- A fresh person document is stable for its own creator when the
fetched details are truthy. -/
theorem freshPersonDoc_stable (ib now : String) (u : UCreator)
    (det : PersonDetails) (hname : ¬ det.name = "") (hid0 : ¬ det.id = 0)
    (hurl : ¬ det.siteUrl = "") :
    StableHeader ib u det (freshPersonDoc ib now u det).fm := by
  obtain ⟨hent, hnm, hcid, hcurl, hbd, hdd, htg⟩ :=
    freshPersonDoc_fields ib now u det
  obtain ⟨hrl, hcl⟩ := freshPersonDoc_lists ib now u det
  refine ⟨hent, ?_, ?_, ?_, ?_, ?_, ?_, ?_, ?_, ?_, ?_, ?_⟩
  · rw [hnm]
    show (det.name == "") = false
    exact beq_eq_false_iff_ne.mpr hname
  · rw [hcid]
    show (det.id == 0) = false
    exact beq_eq_false_iff_ne.mpr hid0
  · rw [hcurl]
    show (det.siteUrl == "") = false
    exact beq_eq_false_iff_ne.mpr hurl
  · intro h
    rw [hbd]
    exact h
  · intro h
    rw [hdd]
    exact h
  · rw [hrl]
    rfl
  · rw [hcl]
    exact (rolesLoop_isSome ib (dedupKeepFirst u.roles) (freshBaseFM det now)
      Vault.empty true rfl rfl).2
  · rw [htg]
    rfl
  · rw [htg]
    rfl
  · rw [htg]
    rfl
  · intro r hr hrne
    have hest := rolesLoop_establishes ib (dedupKeepFirst u.roles)
      (freshBaseFM det now) Vault.empty true r hr hrne
    constructor
    · rw [hrl]
      simp only [Option.getD_some]
      exact mem_sortRolesList.mpr hest.1
    · rw [hcl]
      exact hest.2.1

/-- Processing a creator with no existing document appends exactly one
fresh person document, never removes a concept document, and establishes
the concept document of each of the creator's roles. -/
theorem processCreator_fresh (fetch : Nat → Option PersonDetails)
    (now ib : String) (v : Vault) (u : UCreator) (det : PersonDetails)
    (hfind : findPersonNote v u.id u.name = none)
    (hfetch : fetch u.id = some det) :
    (processCreator fetch now ib v u).people
      = v.people ++ [(upath u, freshPersonDoc ib now u det)]
    ∧ (∀ f, (v.concepts.lookup f).isSome = true →
        ((processCreator fetch now ib v u).concepts.lookup f).isSome = true)
    ∧ (∀ r ∈ dedupKeepFirst u.roles, ¬ r = "" →
        ((processCreator fetch now ib v u).concepts.lookup
          (roleFilename r)).isSome = true) := by
  simp only [processCreator, hfind, hfetch, Option.isNone_none]
  set M := mergeCore PersonFM.empty true det now with hM
  set F2 := ensureListFields M.1 with hF2
  set T := addTagsStep F2 M.2 with hT
  set DD := dedupKeepFirst u.roles with hDD
  set R := rolesLoop ib DD T.1 v T.2 with hR
  have hM2 : M.2 = true := by rw [hM, mergeCore_fresh]
  have hF2E : F2 = freshBaseFM det now := by
    rw [hF2, hM, mergeCore_fresh]
    rfl
  have hT1 : T = (freshBaseFM det now, true) := by
    rw [hT, hF2E, hM2]
    exact addTagsStep_stable true rfl rfl rfl
  have hch : R.2.2 = true := by
    rw [hR, hT1]
    exact rolesLoop_ch_true ib DD (freshBaseFM det now, true).1 v
  have hpeople1 : R.2.1.people = v.people := by
    rw [hR]
    exact rolesLoop_people ib DD T.1 v T.2
  have hdoc : buildFrontmatter
      { R.1 with
        roles := some (sortRolesList (R.1.roles.getD [])),
        modificationDate := some now }
      ("# " ++ u.name ++ "\n\n") = freshPersonDoc ib now u det := by
    rw [freshPersonDoc_eq]
    simp only [hR, hT1, hDD]
    rw [(rolesLoop_state_indep ib (dedupKeepFirst u.roles)
      (freshBaseFM det now) v Vault.empty true).1]
  refine ⟨?_, ?_, ?_⟩
  · rw [if_pos hch]
    show R.2.1.people ++ [(sanitizeForFileName u.name ++ ".md",
        buildFrontmatter
          { R.1 with
            roles := some (sortRolesList (R.1.roles.getD [])),
            modificationDate := some now }
          ("# " ++ u.name ++ "\n\n"))]
      = v.people ++ [(upath u, freshPersonDoc ib now u det)]
    rw [hdoc, hpeople1]
    rfl
  · intro f hf
    rw [if_pos hch]
    show ((R.2.1).concepts.lookup f).isSome = true
    rw [hR]
    exact rolesLoop_concepts_mono ib DD T.1 v T.2 f hf
  · intro r hr hrne
    rw [if_pos hch]
    show ((R.2.1).concepts.lookup (roleFilename r)).isSome = true
    rw [hR]
    exact (rolesLoop_establishes ib DD T.1 v T.2 r hr hrne).2.2

/-- Processing a creator whose document is already stable rewrites
nothing: the change flag stays false and the store is returned
untouched. -/
theorem processCreator_stable (fetch : Nat → Option PersonDetails)
    (now ib : String) (v : Vault) (u : UCreator) (det : PersonDetails)
    (p : String) (d : PersonDoc)
    (hfind : findPersonNote v u.id u.name = some p)
    (hlook : v.people.lookup p = some d)
    (hfetch : fetch u.id = some det)
    (hstable : StableHeader ib u det d.fm)
    (hconc : ∀ r ∈ dedupKeepFirst u.roles, ¬ r = "" →
      (v.concepts.lookup (roleFilename r)).isSome = true) :
    processCreator fetch now ib v u = v := by
  obtain ⟨hent, hname, hid, hurl, hbirth, hdeath, hroles, hcred, htags,
    htagp, htagc, hestab⟩ := hstable
  have hm : mergeCore d.fm false det now =
      ({ d.fm with modificationDate := some now }, false) :=
    mergeCore_stable det now hent hname hid hurl hbirth hdeath
  have he : ensureListFields { d.fm with modificationDate := some now } =
      { d.fm with modificationDate := some now } :=
    ensureListFields_eq_self hroles hcred htags
  have ht : addTagsStep { d.fm with modificationDate := some now } false =
      ({ d.fm with modificationDate := some now }, false) :=
    addTagsStep_stable false htags htagp htagc
  have hrl : rolesLoop ib (dedupKeepFirst u.roles)
      { d.fm with modificationDate := some now } v false =
      ({ d.fm with modificationDate := some now }, v, false) :=
    rolesLoop_stable ib (dedupKeepFirst u.roles)
      { d.fm with modificationDate := some now } v false
      (fun r hr hrne => ⟨(hestab r hr hrne).1, (hestab r hr hrne).2,
        hconc r hr hrne⟩)
  simp only [processCreator, hfind, hlook, hfetch, Option.isNone_some,
    hm, he, ht, hrl]
  rfl
/-- The details the network returns for a creator, with a default for
the (never reached) failed case. -/
def fetchedDetails (fetch : Nat → Option PersonDetails) (u : UCreator) :
    PersonDetails :=
  (fetch u.id).getD ⟨0, "", "", none, none⟩

/-- Appending a common suffix preserves distinctness of strings. -/
theorem string_append_cancel {a b c : String}
    (h : (a ++ c : String) = b ++ c) : a = b := by
  have hd := congrArg String.data h
  rw [String.data_append, String.data_append] at hd
  have h2 := List.append_cancel_right hd
  cases a
  cases b
  exact congrArg String.mk h2

/-- No document is found in an empty people folder. -/
theorem findPersonNote_nil {v : Vault} (h : v.people = [])
    (cid : Nat) (cname : String) : findPersonNote v cid cname = none := by
  unfold findPersonNote
  rw [h]
  rfl

/-- A failed scan over a prefix passes to the suffix. -/
theorem find?_append_none {α : Type} {p : α → Bool} {l1 : List α}
    (l2 : List α) (h : l1.find? p = none) :
    (l1 ++ l2).find? p = l2.find? p := by
  induction l1 with
  | nil => rfl
  | cons a t ih =>
    cases hpa : p a with
    | true =>
      rw [List.find?_cons_of_pos t hpa] at h
      simp at h
    | false =>
      rw [List.find?_cons_of_neg t (by simp [hpa])] at h
      rw [List.cons_append, List.find?_cons_of_neg _ (by simp [hpa])]
      exact ih h

/-- A failed key lookup over a prefix passes to the suffix. -/
theorem lookup_append_none {β : Type} {l1 : List (String × β)}
    (l2 : List (String × β)) {k : String} (h : l1.lookup k = none) :
    (l1 ++ l2).lookup k = l2.lookup k := by
  induction l1 with
  | nil => rfl
  | cons e t ih =>
    cases hk : (k == e.1) with
    | true =>
      simp only [List.lookup, hk, cond_true] at h
      exact Option.noConfusion h
    | false =>
      simp only [List.lookup, hk, cond_false] at h
      rw [List.cons_append]
      simp only [List.lookup, hk, cond_false]
      exact ih h

/-- Appending a document with a different external id and a different
path does not make a missing person findable. -/
theorem findPersonNote_extend {v w : Vault} {cid : Nat} {cname : String}
    {path : String} {doc : PersonDoc}
    (h : findPersonNote v cid cname = none)
    (hw : w.people = v.people ++ [(path, doc)])
    (hid : ¬ doc.fm.comicVineId = some cid)
    (hpath : ¬ path = sanitizeForFileName cname ++ ".md") :
    findPersonNote w cid cname = none := by
  have hidb : ¬ (doc.fm.comicVineId == some cid) = true := by
    intro hb
    exact hid (eq_of_beq hb)
  unfold findPersonNote at h ⊢
  rw [hw]
  cases hf : v.people.find? (fun e => e.2.fm.comicVineId == some cid) with
  | some e =>
    rw [hf] at h
    simp at h
  | none =>
    rw [hf] at h
    have hlk : v.people.lookup (sanitizeForFileName cname ++ ".md") = none := by
      cases hl : v.people.lookup (sanitizeForFileName cname ++ ".md") with
      | none => rfl
      | some x => simp [hl] at h
    have hk : ((sanitizeForFileName cname ++ ".md" : String) == path) = false :=
      beq_eq_false_iff_ne.mpr (fun hc => hpath hc.symm)
    have hfa : (v.people ++ [(path, doc)]).find?
        (fun e => e.2.fm.comicVineId == some cid) = none := by
      rw [find?_append_none _ hf,
        List.find?_cons_of_neg _ (by simpa using hidb)]
      rfl
    have hla : (v.people ++ [(path, doc)]).lookup
        (sanitizeForFileName cname ++ ".md") = none := by
      rw [lookup_append_none _ hlk]
      simp only [List.lookup, hk, cond_false]
    simp [hfa, hla]

/-- The id scan over documents freshly mapped from creators with
distinct ids finds exactly the creator's own document. -/
theorem find_by_id_in_mapped (fdoc : UCreator → PersonDoc) :
    ∀ us : List UCreator,
      (∀ u ∈ us, (fdoc u).fm.comicVineId = some u.id) →
      ((us.map (fun u => u.id)).Nodup) →
      ∀ u ∈ us,
        (us.map (fun u2 => (upath u2, fdoc u2))).find?
            (fun e => e.2.fm.comicVineId == some u.id)
          = some (upath u, fdoc u) := by
  intro us
  induction us with
  | nil =>
    intro _ _ u hu
    simp at hu
  | cons u0 rest ih =>
    intro hids hnd u hu
    rw [List.map_cons]
    rcases List.mem_cons.mp hu with rfl | hmem
    · have hpos : ((upath u, fdoc u).2.fm.comicVineId == some u.id) = true := by
        show ((fdoc u).fm.comicVineId == some u.id) = true
        rw [hids u (List.mem_cons_self u rest)]
        exact beq_self_eq_true (some u.id)
      rw [List.find?_cons_of_pos
        (p := fun (e : String × PersonDoc) =>
          e.2.fm.comicVineId == some u.id) _ hpos]
    · have hne : ¬ u0.id = u.id := by
        intro hc
        rw [List.map_cons, List.nodup_cons] at hnd
        exact hnd.1 (hc ▸ List.mem_map_of_mem (fun x => x.id) hmem)
      have hneg : ¬ ((upath u0, fdoc u0).2.fm.comicVineId == some u.id) = true := by
        show ¬ ((fdoc u0).fm.comicVineId == some u.id) = true
        rw [hids u0 (List.mem_cons_self u0 rest)]
        intro hb
        exact hne (Option.some.inj (eq_of_beq hb))
      rw [List.find?_cons_of_neg
        (p := fun (e : String × PersonDoc) =>
          e.2.fm.comicVineId == some u.id) _ hneg]
      exact ih (fun x hx => hids x (List.mem_cons_of_mem u0 hx))
        (by rw [List.map_cons, List.nodup_cons] at hnd; exact hnd.2) u hmem

/-- Looking up a creator's sanitized path among freshly mapped documents
with pairwise distinct paths returns the creator's own document. -/
theorem lookup_in_mapped (fdoc : UCreator → PersonDoc) :
    ∀ us : List UCreator,
      (∀ u ∈ us, ∀ u2 ∈ us, ¬ u.id = u2.id → ¬ upath u = upath u2) →
      ((us.map (fun u => u.id)).Nodup) →
      ∀ u ∈ us,
        (us.map (fun u2 => (upath u2, fdoc u2))).lookup (upath u)
          = some (fdoc u) := by
  intro us
  induction us with
  | nil =>
    intro _ _ u hu
    simp at hu
  | cons u0 rest ih =>
    intro hpaths hnd u hu
    rw [List.map_cons]
    rcases List.mem_cons.mp hu with rfl | hmem
    · simp only [List.lookup, beq_self_eq_true, cond_true]
    · have hne : ¬ u.id = u0.id := by
        intro hc
        rw [List.map_cons, List.nodup_cons] at hnd
        exact hnd.1 (hc ▸ List.mem_map_of_mem (fun x => x.id) hmem)
      have hk : (upath u == upath u0) = false :=
        beq_eq_false_iff_ne.mpr
          (hpaths u (List.mem_cons_of_mem u0 hmem) u0
            (List.mem_cons_self u0 rest) hne)
      simp only [List.lookup, hk, cond_false]
      exact ih (fun x hx y hy => hpaths x (List.mem_cons_of_mem u0 hx) y
          (List.mem_cons_of_mem u0 hy))
        (by rw [List.map_cons, List.nodup_cons] at hnd; exact hnd.2) u hmem

/-- First import over creators none of whose documents exist: the fold
appends one fresh document per creator, preserves concept documents and
establishes each creator's role concepts. -/
theorem foldl_fresh (fetch : Nat → Option PersonDetails) (now ib : String) :
    ∀ (us : List UCreator) (v : Vault),
      (∀ u ∈ us, ∃ det, fetch u.id = some det ∧ det.id = u.id) →
      (∀ u ∈ us, findPersonNote v u.id u.name = none) →
      (∀ u ∈ us, ∀ u2 ∈ us, ¬ u.id = u2.id → ¬ upath u = upath u2) →
      ((us.map (fun u => u.id)).Nodup) →
      (us.foldl (processCreator fetch now ib) v).people
        = v.people ++ us.map (fun u2 =>
            (upath u2, freshPersonDoc ib now u2 (fetchedDetails fetch u2)))
      ∧ (∀ f, (v.concepts.lookup f).isSome = true →
          ((us.foldl (processCreator fetch now ib) v).concepts.lookup
            f).isSome = true)
      ∧ (∀ u ∈ us, ∀ r ∈ dedupKeepFirst u.roles, ¬ r = "" →
          ((us.foldl (processCreator fetch now ib) v).concepts.lookup
            (roleFilename r)).isSome = true) := by
  intro us
  induction us with
  | nil =>
    intro v _ _ _ _
    exact ⟨by simp, fun f hf => hf, by intro u hu; simp at hu⟩
  | cons u0 rest ih =>
    intro v h1 h2 h3 h4
    obtain ⟨det, hdet, hdid⟩ := h1 u0 (List.mem_cons_self u0 rest)
    have hfd : fetchedDetails fetch u0 = det := by
      unfold fetchedDetails
      rw [hdet]
      rfl
    have hpc := processCreator_fresh fetch now ib v u0 det
      (h2 u0 (List.mem_cons_self u0 rest)) hdet
    have hndtail : ((rest.map (fun u => u.id)).Nodup) := by
      rw [List.map_cons, List.nodup_cons] at h4
      exact h4.2
    have hfind2 : ∀ u ∈ rest,
        findPersonNote (processCreator fetch now ib v u0) u.id u.name
          = none := by
      intro u hu
      have hne : ¬ u0.id = u.id := by
        intro hc
        rw [List.map_cons, List.nodup_cons] at h4
        exact h4.1 (hc ▸ List.mem_map_of_mem (fun x => x.id) hu)
      refine findPersonNote_extend (h2 u (List.mem_cons_of_mem u0 hu))
        hpc.1 ?_ ?_
      · intro hc
        rw [(freshPersonDoc_fields ib now u0 det).2.2.1] at hc
        have h5 : det.id = u.id := Option.some.inj hc
        rw [hdid] at h5
        exact hne h5
      · exact h3 u0 (List.mem_cons_self u0 rest) u
          (List.mem_cons_of_mem u0 hu) hne
    have IH := ih (processCreator fetch now ib v u0)
      (fun x hx => h1 x (List.mem_cons_of_mem u0 hx))
      hfind2
      (fun x hx y hy => h3 x (List.mem_cons_of_mem u0 hx) y
        (List.mem_cons_of_mem u0 hy))
      hndtail
    refine ⟨?_, ?_, ?_⟩
    · rw [List.foldl_cons, IH.1, hpc.1]
      simp only [List.map_cons]
      rw [hfd, List.append_assoc, List.singleton_append]
    · intro f hf
      rw [List.foldl_cons]
      exact IH.2.1 f (hpc.2.1 f hf)
    · intro u hu r hr hrne
      rw [List.foldl_cons]
      rcases List.mem_cons.mp hu with rfl | hmem
      · exact IH.2.1 (roleFilename r) (hpc.2.2 r hr hrne)
      · exact IH.2.2 u hmem r hr hrne

/-- Second import over creators all of whose documents are stable: the
fold is the identity on the store. -/
theorem foldl_stable (fetch : Nat → Option PersonDetails) (now ib : String) :
    ∀ (us : List UCreator) (v : Vault),
      (∀ u ∈ us, ∃ det p d, fetch u.id = some det
        ∧ findPersonNote v u.id u.name = some p
        ∧ v.people.lookup p = some d
        ∧ StableHeader ib u det d.fm
        ∧ (∀ r ∈ dedupKeepFirst u.roles, ¬ r = "" →
            (v.concepts.lookup (roleFilename r)).isSome = true)) →
      us.foldl (processCreator fetch now ib) v = v := by
  intro us
  induction us with
  | nil =>
    intro v _
    rfl
  | cons u0 rest ih =>
    intro v h
    obtain ⟨det, p, d, hdet, hfind, hlook, hstable, hconc⟩ :=
      h u0 (List.mem_cons_self u0 rest)
    rw [List.foldl_cons,
      processCreator_stable fetch now ib v u0 det p d hfind hlook hdet
        hstable hconc]
    exact ih v (fun u hu => h u (List.mem_cons_of_mem u0 hu))
/-- C3 (amended): starting from a store whose people folder is empty,
when the details fetch succeeds for every credited person with the
matching nonzero id, a non-empty name and a non-empty site url, and
distinct credited persons have distinct sanitized file names, importing
an issue with creator-note creation enabled produces exactly one person
document per unique credited person (the headers carry the external ids
in order) with a duplicate-free credits list, and importing the same
issue a second time finds every existing document by its stored external
id and leaves the store exactly unchanged, so no duplicate person
document is created. -/
theorem ensureCreatorNotesExist_idempotent
    (fetch : Nat → Option PersonDetails) (now now2 ib : String)
    (credits : List Credit) (v0 : Vault)
    (hpeople : v0.people = [])
    (hfetch : ∀ c ∈ credits, ∃ det, fetch c.id = some det ∧ det.id = c.id
      ∧ ¬ det.name = "" ∧ ¬ det.siteUrl = "")
    (hids : ∀ c ∈ credits, ¬ c.id = 0)
    (hnames : ∀ c ∈ credits, ∀ c2 ∈ credits, ¬ c.id = c2.id →
      ¬ sanitizeForFileName c.name = sanitizeForFileName c2.name) :
    ensureCreatorNotesExist fetch now2 ib credits
        (ensureCreatorNotesExist fetch now ib credits v0)
      = ensureCreatorNotesExist fetch now ib credits v0
    ∧ (ensureCreatorNotesExist fetch now ib credits v0).people.map
        (fun e => e.2.fm.comicVineId)
      = (uniqueCreators credits).map (fun u => some u.id)
    ∧ ∀ e ∈ (ensureCreatorNotesExist fetch now ib credits v0).people,
        (e.2.fm.credits.getD []).Nodup := by
  have hU : ∀ u ∈ uniqueCreators credits, ∃ det, fetch u.id = some det
      ∧ det.id = u.id ∧ ¬ det.name = "" ∧ ¬ det.siteUrl = ""
      ∧ ¬ u.id = 0 := by
    intro u hu
    obtain ⟨c, hc, hcid, hcname⟩ := mem_uniqueCreators hu
    obtain ⟨det, hdet, hdid, hdn, hdu⟩ := hfetch c hc
    refine ⟨det, ?_, ?_, hdn, hdu, ?_⟩
    · rw [hcid]
      exact hdet
    · rw [hcid]
      exact hdid
    · rw [hcid]
      exact hids c hc
  have hnd : ((uniqueCreators credits).map (fun u => u.id)).Nodup :=
    uniqueCreators_ids_nodup credits
  have hpaths : ∀ u ∈ uniqueCreators credits, ∀ u2 ∈ uniqueCreators credits,
      ¬ u.id = u2.id → ¬ upath u = upath u2 := by
    intro u hu u2 hu2 hne hcon
    obtain ⟨c, hc1, hcid, hcname⟩ := mem_uniqueCreators hu
    obtain ⟨c2, hc2, hcid2, hcname2⟩ := mem_uniqueCreators hu2
    have hcne : ¬ c.id = c2.id := by
      intro hx
      exact hne (by rw [hcid, hcid2, hx])
    have hcon2 : sanitizeForFileName u.name ++ ".md"
        = sanitizeForFileName u2.name ++ ".md" := hcon
    have hcanc := string_append_cancel hcon2
    rw [hcname, hcname2] at hcanc
    exact hnames c hc1 c2 hc2 hcne hcanc
  have hfind0 : ∀ u ∈ uniqueCreators credits,
      findPersonNote v0 u.id u.name = none :=
    fun u _ => findPersonNote_nil hpeople u.id u.name
  have hfresh := foldl_fresh fetch now ib (uniqueCreators credits) v0
    (fun u hu => (hU u hu).imp (fun det hdet => ⟨hdet.1, hdet.2.1⟩))
    hfind0 hpaths hnd
  have hv1people : (ensureCreatorNotesExist fetch now ib credits v0).people
      = (uniqueCreators credits).map (fun u2 =>
          (upath u2, freshPersonDoc ib now u2 (fetchedDetails fetch u2))) := by
    show ((uniqueCreators credits).foldl
      (processCreator fetch now ib) v0).people = _
    rw [hfresh.1, hpeople, List.nil_append]
  have hidm : ∀ x ∈ uniqueCreators credits,
      (freshPersonDoc ib now x (fetchedDetails fetch x)).fm.comicVineId
        = some x.id := by
    intro x hx
    obtain ⟨detx, hdetx, hdidx, _, _, _⟩ := hU x hx
    have hfdx : fetchedDetails fetch x = detx := by
      unfold fetchedDetails
      rw [hdetx]
      rfl
    rw [hfdx, (freshPersonDoc_fields ib now x detx).2.2.1, hdidx]
  have hstab : ∀ u ∈ uniqueCreators credits, ∃ det p d,
      fetch u.id = some det
      ∧ findPersonNote (ensureCreatorNotesExist fetch now ib credits v0)
          u.id u.name = some p
      ∧ (ensureCreatorNotesExist fetch now ib credits v0).people.lookup p
          = some d
      ∧ StableHeader ib u det d.fm
      ∧ (∀ r ∈ dedupKeepFirst u.roles, ¬ r = "" →
          ((ensureCreatorNotesExist fetch now ib credits
            v0).concepts.lookup (roleFilename r)).isSome = true) := by
    intro u hu
    obtain ⟨det, hdet, hdid, hdn, hdu, hid0⟩ := hU u hu
    have hfdu : fetchedDetails fetch u = det := by
      unfold fetchedDetails
      rw [hdet]
      rfl
    have hdid0 : ¬ det.id = 0 := by
      rw [hdid]
      exact hid0
    refine ⟨det, upath u, freshPersonDoc ib now u det, hdet, ?_, ?_, ?_, ?_⟩
    · have hfindm := find_by_id_in_mapped
        (fun u2 => freshPersonDoc ib now u2 (fetchedDetails fetch u2))
        (uniqueCreators credits) hidm hnd u hu
      unfold findPersonNote
      rw [hv1people, hfindm]
    · have hlookm := lookup_in_mapped
        (fun u2 => freshPersonDoc ib now u2 (fetchedDetails fetch u2))
        (uniqueCreators credits) hpaths hnd u hu
      rw [hv1people, hlookm]
      show some (freshPersonDoc ib now u (fetchedDetails fetch u))
        = some (freshPersonDoc ib now u det)
      rw [hfdu]
    · exact freshPersonDoc_stable ib now u det hdn hdid0 hdu
    · intro r hr hrne
      exact hfresh.2.2 u hu r hr hrne
  refine ⟨?_, ?_, ?_⟩
  · show (uniqueCreators credits).foldl (processCreator fetch now2 ib)
      (ensureCreatorNotesExist fetch now ib credits v0)
      = ensureCreatorNotesExist fetch now ib credits v0
    exact foldl_stable fetch now2 ib (uniqueCreators credits)
      (ensureCreatorNotesExist fetch now ib credits v0) hstab
  · rw [hv1people, List.map_map]
    apply List.map_congr_left
    intro x hx
    show (freshPersonDoc ib now x (fetchedDetails fetch x)).fm.comicVineId
      = some x.id
    exact hidm x hx
  · intro e he
    rw [hv1people] at he
    obtain ⟨x, hx, rfl⟩ := List.mem_map.mp he
    exact freshPersonDoc_credits_nodup ib now x (fetchedDetails fetch x)

/-- Two distinct credited persons who share a name. -/
def c3credits : List Credit := [⟨1, "Ann", "writer"⟩, ⟨2, "Ann", "writer"⟩]

/-- The fetch results for the two persons: distinct ids, one shared
name. -/
def c3fetch : Nat → Option PersonDetails := fun i =>
  if i = 1 then some ⟨1, "Ann", "u1", none, none⟩
  else if i = 2 then some ⟨2, "Ann", "u2", none, none⟩ else none

/-- The store after a first import of the issue. -/
def c3v1 : Vault :=
  ensureCreatorNotesExist c3fetch "T1" "Issue 7" c3credits Vault.empty

/-- The store after a second import of the same issue. -/
def c3v2 : Vault :=
  ensureCreatorNotesExist c3fetch "T2" "Issue 7" c3credits c3v1

/-- C3 counterexample: an issue crediting two distinct persons with
distinct external ids but one shared sanitized file name produces a
single person document for both, not one document per unique credited
person: the name-based fallback of the finder merges the second person
into the document of the first, on the first and on the second run
of the importer alike. -/
theorem double_import_not_one_doc_per_person :
    (uniqueCreators c3credits).length = 2
    ∧ c3v1.people.length = 1
    ∧ c3v2.people.length = 1
    ∧ c3v1.people.map (fun e => e.1) = ["Ann.md"] := by
  refine ⟨rfl, ?_, ?_, ?_⟩ <;> decide

/-- The credited persons of the C3 witness issue. -/
def c3wcredits : List Credit :=
  [⟨1, "Chris Claremont", "writer"⟩, ⟨2, "John Byrne", "penciler"⟩]

/-- The fetch results of the C3 witness issue. -/
def c3wfetch : Nat → Option PersonDetails := fun i =>
  if i = 1 then some ⟨1, "Chris Claremont", "u1", some "1950-11-25", none⟩
  else if i = 2 then some ⟨2, "John Byrne", "u2", none, none⟩ else none

/-- Witness for C3: the amended idempotence theorem applied to a
concrete two-creator issue imported twice into an empty store. -/
theorem ensureCreatorNotesExist_idempotent_witness :
    ensureCreatorNotesExist c3wfetch "T2" "Issue 100" c3wcredits
        (ensureCreatorNotesExist c3wfetch "T1" "Issue 100" c3wcredits
          Vault.empty)
      = ensureCreatorNotesExist c3wfetch "T1" "Issue 100" c3wcredits
          Vault.empty
    ∧ (ensureCreatorNotesExist c3wfetch "T1" "Issue 100" c3wcredits
        Vault.empty).people.map (fun e => e.2.fm.comicVineId)
      = (uniqueCreators c3wcredits).map (fun u => some u.id)
    ∧ ∀ e ∈ (ensureCreatorNotesExist c3wfetch "T1" "Issue 100" c3wcredits
        Vault.empty).people,
        (e.2.fm.credits.getD []).Nodup :=
  ensureCreatorNotesExist_idempotent c3wfetch "T1" "T2" "Issue 100"
    c3wcredits Vault.empty rfl
    (by
      intro c hc
      rcases List.mem_cons.mp hc with rfl | hc2
      · exact ⟨⟨1, "Chris Claremont", "u1", some "1950-11-25", none⟩,
          rfl, rfl, by decide, by decide⟩
      rcases List.mem_cons.mp hc2 with rfl | hc3
      · exact ⟨⟨2, "John Byrne", "u2", none, none⟩, rfl, rfl,
          by decide, by decide⟩
      · exact absurd hc3 (List.not_mem_nil c))
    (by decide) (by decide)
end ComicSearch
